import Mathlib

/-!
Verification development for the env-guardian scanner (src/index.ts).

The TypeScript source is shallowly embedded: strings are Lean `String`
(lists of characters), the JavaScript regular expressions used by the
scanner are translated into executable character-list scanners with the
same matching semantics, and the recursive directory walk `scanForEnv`
becomes structural recursion over an explicit filesystem tree.  The
`ScanResult` record object is modelled as an insertion-ordered
association list, mirroring how a JS object accumulates keys.
-/

/-! ## Character classes used by the regular expressions in the source -/

/-- JavaScript `\s` character class (whitespace, as used by `trim` too):
    tab, lf, vtab, ff, cr, space, nbsp, ogham space, en quad .. hair space,
    line sep, para sep, narrow nbsp, math space, ideographic space, BOM. -/
def wsJS (c : Char) : Bool :=
  c == ' ' || c == '\t' || c == '\n' || c == '\r' ||
  c == Char.ofNat 0x0b || c == Char.ofNat 0x0c ||
  c == Char.ofNat 0xa0 || c == Char.ofNat 0x1680 ||
  (Char.ofNat 0x2000 ≤ c && c ≤ Char.ofNat 0x200a) ||
  c == Char.ofNat 0x2028 || c == Char.ofNat 0x2029 ||
  c == Char.ofNat 0x202f || c == Char.ofNat 0x205f ||
  c == Char.ofNat 0x3000 || c == Char.ofNat 0xfeff

/-- JavaScript line terminators: the characters NOT matched by `.` in a regex. -/
def lineTermJS (c : Char) : Bool :=
  c == '\n' || c == '\r' || c == Char.ofNat 0x2028 || c == Char.ofNat 0x2029

def lowerAZ (c : Char) : Bool := 'a' ≤ c && c ≤ 'z'
def upperAZ (c : Char) : Bool := 'A' ≤ c && c ≤ 'Z'
def digit09 (c : Char) : Bool := '0' ≤ c && c ≤ '9'
def alnumAZ09 (c : Char) : Bool := lowerAZ c || upperAZ c || digit09 c

/-- Character class `[A-Z0-9_]` (ALL-CAPS identifier characters). -/
def capsChar (c : Char) : Bool := upperAZ c || digit09 c || c == '_'

/-- Character class `\w` = `[A-Za-z0-9_]`. -/
def wordChar (c : Char) : Bool := alnumAZ09 c || c == '_'

/-- Character class `[A-Za-z0-9-_]` (base64url-ish, used by the value rules). -/
def b64uChar (c : Char) : Bool := alnumAZ09 c || c == '-' || c == '_'

/-- First character of a JS identifier: `[A-Za-z_$]`. -/
def identStartJS (c : Char) : Bool := lowerAZ c || upperAZ c || c == '_' || c == '$'

/-- Subsequent character of a JS identifier: `[A-Za-z0-9_$]`. -/
def identCharJS (c : Char) : Bool := alnumAZ09 c || c == '_' || c == '$'

/-- The backtick character (ASCII 96). -/
def backtickChar : Char := Char.ofNat 96

/-- The three quote characters recognised by `extractStringLiteral`. -/
def quoteJS (c : Char) : Bool := c == '\'' || c == '"' || c == backtickChar

/-- Quote characters accepted by the JSON matcher and the usage patterns. -/
def sqdq (c : Char) : Bool := c == '\'' || c == '"'

/-! ## Basic string scanning helpers (over `List Char`) -/

def startsWithL : List Char → List Char → Bool
  | [], _ => true
  | _ :: _, [] => false
  | p :: ps, c :: cs => p == c && startsWithL ps cs

def containsL (pat : List Char) : List Char → Bool
  | [] => startsWithL pat []
  | c :: cs => startsWithL pat (c :: cs) || containsL pat cs

def lcL (cs : List Char) : List Char := cs.map Char.toLower

/-- Case-insensitive `startsWith` (both sides lowercased, ASCII). -/
def startsWithCI (pat : List Char) (cs : List Char) : Bool :=
  startsWithL (lcL pat) (lcL cs)

/-- Substring test, `String` level. -/
def csub (pat s : String) : Bool := containsL pat.data s.data

/-- Case-insensitive substring test, `String` level. -/
def csubCI (pat s : String) : Bool := containsL (lcL pat.data) (lcL s.data)

/-- Case-insensitive `endsWith` (ASCII). -/
def endsWithCI (pat cs : List Char) : Bool :=
  startsWithL (lcL pat).reverse (lcL cs).reverse

/-- Case-insensitive whole-string equality (ASCII). -/
def eqCI (a b : String) : Bool := lcL a.data == lcL b.data

/-- JavaScript `String.prototype.trim` (strips `\s` from both ends). -/
def trimL (cs : List Char) : List Char :=
  ((cs.dropWhile wsJS).reverse.dropWhile wsJS).reverse

def jsTrim (s : String) : String := String.mk (trimL s.data)

def noLineTerm (s : String) : Bool := !(s.data.any lineTermJS)

/-! ## splitIdentifier -/

/-- The global replace `name.replace(/([a-z0-9])([A-Z])/g, "$1 $2")`: after a
    match the scan continues after the matched pair, which coincides with
    examining every adjacent pair because the two classes are disjoint. -/
def camelSpace : List Char → List Char
  | [] => []
  | [c] => [c]
  | c1 :: c2 :: rest =>
    if (lowerAZ c1 || digit09 c1) && upperAZ c2 then
      c1 :: ' ' :: c2 :: camelSpace rest
    else
      c1 :: camelSpace (c2 :: rest)

/-- Separator class of the split regex `[\s_\-]+`. -/
def sepChar (c : Char) : Bool := wsJS c || c == '_' || c == '-'

theorem dropWhileLenLe (p : α → Bool) : ∀ l : List α, (l.dropWhile p).length ≤ l.length
  | [] => Nat.le_refl _
  | a :: l => by
    rw [List.dropWhile_cons]
    by_cases h : p a
    · simp only [h, if_true]
      exact Nat.le_succ_of_le (dropWhileLenLe p l)
    · simp [h]

/-- JavaScript `split(/[\s_\-]+/)`: each separator is a maximal run of
    separator characters; boundary empties are produced like in JS.  The
    fuel argument (any value above the input length) only drives the
    recursion. -/
def splitSepsF : Nat → List Char → List (List Char)
  | 0, _ => [[]]
  | _, [] => [[]]
  | fuel + 1, c :: cs =>
    if sepChar c then
      [] :: splitSepsF fuel (cs.dropWhile sepChar)
    else
      match splitSepsF fuel cs with
      | t :: ts => (c :: t) :: ts
      | [] => [[c]]

def splitSeps (cs : List Char) : List (List Char) := splitSepsF (cs.length + 1) cs

/-- `splitIdentifier` from src/index.ts. -/
def splitIdentifier (name : String) : List String :=
  ((splitSeps (camelSpace name.data)).map
    (fun w => String.mk (lcL w))).filter (fun w => w ≠ "")

/-! Specification-side rendering of the claim about `splitIdentifier`:
    insert a boundary between every lowercase-or-digit character immediately
    followed by an uppercase character, split on every run of
    whitespace/underscore/hyphen, lowercase every token, drop empty tokens. -/

/-- Boundary insertion, examining each adjacent pair independently. -/
def camelSpaceSpec : List Char → List Char
  | [] => []
  | [c] => [c]
  | c1 :: c2 :: rest =>
    (if (lowerAZ c1 || digit09 c1) && upperAZ c2 then [c1, ' '] else [c1]) ++
      camelSpaceSpec (c2 :: rest)

/-- Maximal runs of non-separator characters (no boundary empties). -/
def wordsSpecF : Nat → List Char → List (List Char)
  | 0, _ => []
  | _, [] => []
  | fuel + 1, c :: cs =>
    if sepChar c then wordsSpecF fuel cs
    else ((c :: cs).takeWhile (fun d => !sepChar d)) ::
      wordsSpecF fuel ((c :: cs).dropWhile (fun d => !sepChar d))

def wordsSpec (cs : List Char) : List (List Char) := wordsSpecF (cs.length + 1) cs

/-- Modelled from the claim text, not from the source. -/
def splitIdentifierSpec (name : String) : List String :=
  ((wordsSpec (camelSpaceSpec name.data)).map
    (fun w => String.mk (lcL w))).filter (fun w => w ≠ "")

/-! ## extractStringLiteral -/

/-- `extractStringLiteral` from src/index.ts: the trimmed fragment matches
    the regex with the `s` flag exactly when its first character is one of
    the three quotes and its last character is that same quote (length at
    least two); the capture is everything in between. -/
def extractStringLiteral (raw : String) : Option String :=
  match trimL raw.data with
  | [] => none
  | c :: cs =>
    if quoteJS c && !cs.isEmpty && cs.getLast? == some c then
      some (String.mk cs.dropLast)
    else
      none

/-- Modelled from the claim text: unquoted inner text exactly when the
    trimmed fragment is wholly wrapped in one quote character (length at
    least two, first and last character the same quote, embedded newlines
    allowed); no literal otherwise. -/
def extractStringLiteralSpec (raw : String) : Option String :=
  let t := (jsTrim raw).data
  match t.head?, t.getLast? with
  | some q, some q2 =>
    if 2 ≤ t.length && quoteJS q && (q2 == q) then
      some (String.mk (t.drop 1).dropLast)
    else none
  | _, _ => none

/-! ## Heuristic classifiers -/

/-- JWT shape `^[A-Za-z0-9-_]+\.[A-Za-z0-9-_]+\.[A-Za-z0-9-_]+$`. -/
def jwtShaped (s : String) : Bool :=
  match s.data.splitOn '.' with
  | [a, b, c] => !a.isEmpty && !b.isEmpty && !c.isEmpty &&
      a.all b64uChar && b.all b64uChar && c.all b64uChar
  | _ => false

/-- `/^https?:\/\//i`. -/
def startsHttp (s : String) : Bool :=
  startsWithCI "https://".data s.data || startsWithCI "http://".data s.data

def looksLikeSecretLiteral (str : String) : Bool :=
  let noSpace := !(str.data.any wsJS)
  if jwtShaped str then true
  else if decide (20 ≤ str.data.length) &&
      decide (2 ≤ ((if str.data.any lowerAZ then 1 else 0) +
                   (if str.data.any upperAZ then 1 else 0) +
                   (if str.data.any digit09 then 1 else 0) +
                   (if str.data.any (fun c => !alnumAZ09 c) then 1 else 0) : Nat)) &&
      noSpace then true
  else if startsHttp str && !(csubCI "localhost" str || csubCI "127.0.0.1" str) then
    csubCI "api" str || csubCI "auth" str || csubCI "oauth" str || csubCI "db" str ||
    csubCI "graphql" str || csubCI "issuer" str || csubCI "login" str ||
    csubCI "token" str || csubCI "endpoint" str
  else false

def sensitiveWords : List String :=
  ["secret", "token", "key", "password", "passwd", "pwd", "apikey", "api",
   "auth", "jwt", "bearer", "client", "issuer", "webhook", "dsn", "vault",
   "salt", "private", "cert", "database", "connection", "mongo", "s3", "bucket"]

def looksSensitiveName (name : String) : Bool :=
  (splitIdentifier name).any (fun w => sensitiveWords.contains w)

/-! ## Severity and the rule engine -/

inductive Severity where
  | LOW
  | MEDIUM
  | HIGH
  | CRITICAL
deriving Repr, DecidableEq

def severityRank : Severity → Nat
  | .LOW => 1
  | .MEDIUM => 2
  | .HIGH => 3
  | .CRITICAL => 4

/-- `maxSeverity` from src/index.ts (keeps the first argument on ties). -/
def maxSeverity : Option Severity → Option Severity → Option Severity
  | none, b => b
  | some a, none => some a
  | some a, some b => if severityRank b ≤ severityRank a then some a else some b

/-- One row of a rule table: the regex is embedded as a Boolean test. -/
structure Rule where
  test : String → Bool
  severity : Severity

/-- `getSeverityFromRules` from src/index.ts. -/
def getSeverityFromRules (target : String) (rules : List Rule) : Option Severity :=
  rules.foldl
    (fun severity r => if r.test target then maxSeverity severity (some r.severity) else severity)
    none

/-! ### The SUSPICIOUS_NAMES rule table (regexes embedded row by row) -/

/-- `/(PRIVATE|SECRET).*KEY/i`: some occurrence of PRIVATE or SECRET followed,
    with no line terminator in between, by KEY (all case-insensitive). -/
def keyAfterNoLT : List Char → Bool
  | [] => false
  | c :: cs => startsWithCI "key".data (c :: cs) || (!lineTermJS c && keyAfterNoLT cs)

def privateSecretThenKey : List Char → Bool
  | [] => false
  | c :: cs =>
    (startsWithCI "private".data (c :: cs) && keyAfterNoLT ((c :: cs).drop 7)) ||
    (startsWithCI "secret".data (c :: cs) && keyAfterNoLT ((c :: cs).drop 6)) ||
    privateSecretThenKey cs

def SUSPICIOUS_NAMES : List Rule := [
  -- CRITICAL
  ⟨fun s => match s.data with
    | 's' :: 'k' :: '_' :: c :: _ => alnumAZ09 c
    | _ => false, .CRITICAL⟩,                                     -- /^sk_[A-Za-z0-9]/
  ⟨fun s => s.data.all b64uChar && decide (32 ≤ s.data.length), .CRITICAL⟩,  -- /^[A-Za-z0-9_\-]{32,}$/
  ⟨fun s => privateSecretThenKey s.data, .CRITICAL⟩,              -- /(PRIVATE|SECRET).*KEY/i
  ⟨fun s => startsWithCI "secret".data s.data &&
      (s.data.drop 6).all (fun c => !lineTermJS c), .CRITICAL⟩,   -- /^SECRET.*$/i
  ⟨fun s => noLineTerm s && csubCI "_secret" s, .CRITICAL⟩,       -- /^.*_SECRET.*$/i
  ⟨fun s => csubCI "password" s, .CRITICAL⟩,
  ⟨fun s => csubCI "secret" s, .CRITICAL⟩,
  ⟨fun s => eqCI s "TOKEN" || eqCI s "ACCESS_TOKEN" || eqCI s "API_TOKEN" ||
      eqCI s "JSON_TOKEN", .CRITICAL⟩,                            -- /^(TOKEN|ACCESS_TOKEN|API_TOKEN|JSON_TOKEN)$/i
  ⟨fun s => noLineTerm s && endsWithCI "_token".data s.data, .CRITICAL⟩,  -- /^.*_TOKEN$/i
  -- HIGH
  ⟨fun s => csubCI "apikey" s || csubCI "api-key" s || csubCI "api_key" s, .HIGH⟩,
  ⟨fun s => csubCI "token" s, .HIGH⟩,
  ⟨fun s => csubCI "private" s, .HIGH⟩,
  ⟨fun s => csubCI "clientsecret" s || csubCI "client-secret" s ||
      csubCI "client_secret" s, .HIGH⟩,
  ⟨fun s => noLineTerm s && decide (20 ≤ s.data.length), .HIGH⟩,  -- /^.{20,}$/
  ⟨fun s => csubCI "jwt" s, .HIGH⟩,
  ⟨fun s => csubCI "bearer" s, .HIGH⟩,
  ⟨fun s => csubCI "dsn" s, .HIGH⟩,
  ⟨fun s => csubCI "connection" s, .HIGH⟩,
  ⟨fun s => csubCI "mongo" s, .HIGH⟩,
  ⟨fun s => csubCI "s3" s, .HIGH⟩,
  ⟨fun s => csubCI "bucket" s, .HIGH⟩,
  -- MEDIUM
  ⟨fun s => csubCI "key" s, .MEDIUM⟩,
  ⟨fun s => csubCI "id" s, .MEDIUM⟩,
  ⟨fun s => csubCI "username" s || csubCI "user" s, .MEDIUM⟩,
  ⟨fun s => csubCI "account" s, .MEDIUM⟩,
  ⟨fun s => csubCI "profile" s, .MEDIUM⟩,
  ⟨fun s => csubCI "email" s, .MEDIUM⟩,
  ⟨fun s => csubCI "phone" s, .MEDIUM⟩,
  ⟨fun s => csubCI "project" s, .MEDIUM⟩,
  ⟨fun s => csubCI "organization" s || csubCI "org" s, .MEDIUM⟩,
  ⟨fun s => csubCI "workspace" s, .MEDIUM⟩,
  ⟨fun s => csubCI "region" s, .MEDIUM⟩,
  ⟨fun s => csubCI "locale" s, .MEDIUM⟩,
  ⟨fun s => csubCI "timezone" s, .MEDIUM⟩,
  ⟨fun s => csubCI "cluster" s, .MEDIUM⟩,
  ⟨fun s => csubCI "host" s, .MEDIUM⟩,
  ⟨fun s => csubCI "server" s, .MEDIUM⟩,
  ⟨fun s => csubCI "instance" s, .MEDIUM⟩,
  ⟨fun s => csubCI "url" s, .MEDIUM⟩,
  ⟨fun s => csubCI "uri" s, .MEDIUM⟩,
  ⟨fun s => csubCI "schema" s, .MEDIUM⟩,
  -- LOW
  ⟨fun s => csubCI "port" s, .LOW⟩,
  ⟨fun s => csubCI "version" s, .LOW⟩,
  ⟨fun s => csubCI "mode" s, .LOW⟩,
  ⟨fun s => csubCI "flag" s, .LOW⟩,
  ⟨fun s => csubCI "color" s, .LOW⟩,
  ⟨fun s => csubCI "theme" s, .LOW⟩,
  ⟨fun s => csubCI "language" s || csubCI "lang" s, .LOW⟩,
  ⟨fun s => csubCI "path" s, .LOW⟩,
  ⟨fun s => csubCI "directory" s || csubCI "dir" s, .LOW⟩,
  ⟨fun s => csubCI "file" s, .LOW⟩,
  ⟨fun s => csubCI "cache" s, .LOW⟩,
  ⟨fun s => csubCI "temp" s, .LOW⟩,
  ⟨fun s => csubCI "timeout" s, .LOW⟩,
  ⟨fun s => csubCI "retry" s, .LOW⟩,
  ⟨fun s => csubCI "limit" s, .LOW⟩,
  ⟨fun s => csubCI "offset" s, .LOW⟩]

def SUSPICIOUS_VALUES : List Rule := [
  ⟨fun s => s.data.all b64uChar && decide (40 ≤ s.data.length), .CRITICAL⟩,  -- /^[A-Za-z0-9-_]{40,}$/
  ⟨fun s => s.data.all b64uChar && decide (20 ≤ s.data.length), .HIGH⟩,      -- /^[A-Za-z0-9-_]{20,}$/
  ⟨fun s => jwtShaped s, .HIGH⟩]                                             -- JWT triple

/-- Per-candidate severity computation (lines 318-320 of src/index.ts):
    name rules, then value rules when a truthy literal exists, then the
    MEDIUM heuristic fallback. -/
def candSeverity (key : String) (literal : Option String) : Option Severity :=
  let severity := getSeverityFromRules key SUSPICIOUS_NAMES
  let severity := match literal with
    | some lit => if lit ≠ "" then maxSeverity severity (getSeverityFromRules lit SUSPICIOUS_VALUES)
                  else severity
    | none => severity
  match severity with
  | some s => some s
  | none =>
    if looksSensitiveName key ||
        (match literal with
         | some lit => lit ≠ "" && looksLikeSecretLiteral lit
         | none => false) then
      some .MEDIUM
    else none

/-! ## Embedded regular-expression scanners

Each JS regex used by the scanner is translated into an anchored attempt
function `List Char → Option (captures × rest)`; `scanAll` replays the
global-exec loop: try at each position, continue after a match. -/

/-- Capture array of one match (`m[1]`, `m[2]`, `m[3]`). -/
structure RawMatch where
  g1 : Option String
  g2 : Option String
  g3 : Option String
deriving Repr, DecidableEq

/-- Match a literal, returning the rest. -/
def litP : List Char → List Char → Option (List Char)
  | [], cs => some cs
  | _ :: _, [] => none
  | p :: ps, c :: cs => if p == c then litP ps cs else none

/-- Match a literal case-insensitively (ASCII), returning the rest. -/
def litCIP : List Char → List Char → Option (List Char)
  | [], cs => some cs
  | _ :: _, [] => none
  | p :: ps, c :: cs => if p.toLower == c.toLower then litCIP ps cs else none

/-- Greedy run of at least one character of a class (`X+` before a
    disjoint continuation). -/
def run1 (p : Char → Bool) (cs : List Char) : Option (List Char × List Char) :=
  let r := cs.takeWhile p
  if r.isEmpty then none else some (r, cs.dropWhile p)

/-- Backtracking step shared by the `\s*(.+)`-shaped tails: when the greedy
    whitespace run reaches the end of input, the engine hands back trailing
    whitespace one character at a time; the first position whose character
    is not a line terminator yields a one-character capture. -/
def wsBacktrack1 (minKeep : Nat) (ws : List Char) (cs : List Char) :
    Option (List Char × List Char) :=
  match ws.reverse.dropWhile lineTermJS with
  | c :: before =>
    if minKeep ≤ before.length then some ([c], cs.drop (before.length + 1)) else none
  | [] => none

/-- `\s{minKeep,}(.+)` at the end of a pattern: skip whitespace greedily,
    then capture the remainder of the line (with the JS backtracking corner
    when the whitespace run swallows the rest of the input). -/
def dotPlusAfterWs (minKeep : Nat) (cs : List Char) : Option (List Char × List Char) :=
  let ws := cs.takeWhile wsJS
  let rest := cs.dropWhile wsJS
  if minKeep ≤ ws.length then
    match rest with
    | _ :: _ =>
      some (rest.takeWhile (fun d => !lineTermJS d), rest.dropWhile (fun d => !lineTermJS d))
    | [] => wsBacktrack1 minKeep ws cs
  else none

def lastIdxOfAux (t : Char) : List Char → Nat → Option Nat → Option Nat
  | [], _, acc => acc
  | c :: cs, i, acc => lastIdxOfAux t cs (i + 1) (if c == t then some i else acc)

def lastIdxOf (t : Char) (cs : List Char) : Option Nat := lastIdxOfAux t cs 0 none

/-- `\s*(.+);` at the end of a pattern: the greedy `.+` backtracks to the
    last semicolon on the line; if the semicolon is the first character the
    engine hands back one whitespace character (if it is not a line
    terminator) to feed `.+`. -/
def dotPlusSemi (cs : List Char) : Option (List Char × List Char) :=
  let ws := cs.takeWhile wsJS
  let rest := cs.dropWhile wsJS
  match rest with
  | _ :: _ =>
    let line := rest.takeWhile (fun d => !lineTermJS d)
    match lastIdxOf ';' line with
    | some j =>
      if 1 ≤ j then some (line.take j, rest.drop (j + 1))
      else
        match ws.getLast? with
        | some w => if lineTermJS w then none else some ([w], rest.drop 1)
        | none => none
    | none => none
  | [] => none

/-- Global-exec loop: try the anchored match at each position, continuing
    after each match (fuel is the input length, enough because every match
    consumes at least one character). -/
def scanAll {α : Type} (tryf : List Char → Option (α × List Char)) :
    Nat → List Char → List α
  | 0, _ => []
  | _, [] => []
  | fuel + 1, c :: cs =>
    match tryf (c :: cs) with
    | some (a, rest) => a :: scanAll tryf fuel rest
    | none => scanAll tryf fuel cs

def execMatches {α : Type} (tryf : List Char → Option (α × List Char))
    (cs : List Char) : List α :=
  scanAll tryf (cs.length + 1) cs

/-- Core of the JS/TS declaration matchers
    `(const|let|var)\s+([A-Za-z_$][A-Za-z0-9_$]*)\s*=\s*([\s\S]*?)(?:;|\n|$)`:
    returns the captures, the rest with the delimiter consumed (ts variant)
    and the rest with the delimiter left in place (js lookahead variant). -/
def tryDeclAux (cs : List Char) : Option (RawMatch × List Char × List Char) :=
  let kw? : Option (String × List Char) :=
    match litP "const".data cs with
    | some r => some ("const", r)
    | none =>
      match litP "let".data cs with
      | some r => some ("let", r)
      | none => (litP "var".data cs).map (fun r => ("var", r))
  match kw? with
  | none => none
  | some (kw, r0) =>
    match run1 wsJS r0 with
    | none => none
    | some (_, r1) =>
      match r1 with
      | c :: r2 =>
        if identStartJS c then
          let idr := r2.takeWhile identCharJS
          let r3 := r2.dropWhile identCharJS
          let name := String.mk (c :: idr)
          match r3.dropWhile wsJS with
          | '=' :: r4 =>
            let r5 := r4.dropWhile wsJS
            let initL := r5.takeWhile (fun d => !(d == ';' || d == '\n'))
            let after := r5.dropWhile (fun d => !(d == ';' || d == '\n'))
            let m : RawMatch := ⟨some kw, some name, some (String.mk initL)⟩
            some (m, (match after with | _ :: t => t | [] => []), after)
          | _ => none
        else none
      | [] => none

/-- ts / vue first pattern: the delimiter alternative `(?:;|\n|$)` is consumed. -/
def tryTsDecl (cs : List Char) : Option (RawMatch × List Char) :=
  (tryDeclAux cs).map (fun x => (x.1, x.2.1))

/-- js pattern: the delimiter is a lookahead `(?=;|\n|$)`, not consumed. -/
def tryJsDecl (cs : List Char) : Option (RawMatch × List Char) :=
  (tryDeclAux cs).map (fun x => (x.1, x.2.2))

/-- vue second pattern
    `([A-Za-z_$][A-Za-z0-9_$]*)\s*:\s*(['"`][^'"`]+['"`]|process\.env\.[A-Z0-9_]+)`. -/
def tryVueProp (cs : List Char) : Option (RawMatch × List Char) :=
  match cs with
  | c :: r1 =>
    if identStartJS c then
      let idr := r1.takeWhile identCharJS
      let r2 := r1.dropWhile identCharJS
      let name := String.mk (c :: idr)
      match r2.dropWhile wsJS with
      | ':' :: r4 =>
        let r5 := r4.dropWhile wsJS
        let alt2 : Option (RawMatch × List Char) :=
          match litP "process.env.".data r5 with
          | some r6 =>
            (run1 capsChar r6).map (fun x =>
              (⟨some name, some (String.mk ("process.env.".data ++ x.1)), none⟩, x.2))
          | none => none
        match r5 with
        | q :: r6 =>
          if quoteJS q then
            let body := r6.takeWhile (fun d => !quoteJS d)
            let r7 := r6.dropWhile (fun d => !quoteJS d)
            if body.isEmpty then alt2
            else
              match r7 with
              | q2 :: r8 => some (⟨some name, some (String.mk (q :: body ++ [q2])), none⟩, r8)
              | [] => alt2
          else alt2
        | [] => alt2
      | _ => none
    else none
  | [] => none

/-- py pattern `([A-Za-z_][A-Za-z0-9_]*)\s*=\s*(['"`]?.+['"`]?)`: the leading
    optional quote is re-absorbed by the greedy `.+` and the trailing one can
    never fire after it, so the capture is exactly the `\s*(.+)` tail. -/
def tryPyAssign (cs : List Char) : Option (RawMatch × List Char) :=
  match cs with
  | c :: r1 =>
    if lowerAZ c || upperAZ c || c == '_' then
      let idr := r1.takeWhile wordChar
      let r2 := r1.dropWhile wordChar
      let name := String.mk (c :: idr)
      match r2.dropWhile wsJS with
      | '=' :: r4 =>
        (dotPlusAfterWs 0 r4).map (fun x => (⟨some name, some (String.mk x.1), none⟩, x.2))
      | _ => none
    else none
  | [] => none

/-- rb pattern `([A-Za-z_][A-Za-z0-9_]*)\s*=\s*(.+)`: same scanner as the
    py pattern (see above, the optional quotes there are inert). -/
def tryRbAssign (cs : List Char) : Option (RawMatch × List Char) := tryPyAssign cs

/-- sh/bash pattern `export\s+([A-Z0-9_]+)=([^\n]+)`. -/
def tryShExport (cs : List Char) : Option (RawMatch × List Char) :=
  match litP "export".data cs with
  | none => none
  | some r0 =>
    match run1 wsJS r0 with
    | none => none
    | some (_, r1) =>
      match run1 capsChar r1 with
      | none => none
      | some (name, r2) =>
        match r2 with
        | '=' :: r3 =>
          (run1 (fun c => !(c == '\n')) r3).map (fun x =>
            (⟨some (String.mk name), some (String.mk x.1), none⟩, x.2))
        | _ => none

/-- sh/bash pattern `([A-Z0-9_]+)=([^\n]+)`. -/
def tryShAssign (cs : List Char) : Option (RawMatch × List Char) :=
  match run1 capsChar cs with
  | none => none
  | some (name, r1) =>
    match r1 with
    | '=' :: r2 =>
      (run1 (fun c => !(c == '\n')) r2).map (fun x =>
        (⟨some (String.mk name), some (String.mk x.1), none⟩, x.2))
    | _ => none

/-- The value tail of the json pattern, `\s*["']?(.+?)["']?`: the lazy
    `.+?` never grows (everything after it is optional), so the capture is a
    single character, preceded and followed by at most one consumed quote. -/
def jsonValueTail (cs : List Char) : Option (List Char × List Char) :=
  let ws := cs.takeWhile wsJS
  let rest := cs.dropWhile wsJS
  match rest with
  | c :: tail =>
    if sqdq c then
      match tail with
      | d :: tail2 =>
        if lineTermJS d then some ([c], tail)
        else
          match tail2 with
          | e :: tail3 => if sqdq e then some ([d], tail3) else some ([d], tail2)
          | [] => some ([d], [])
      | [] => some ([c], [])
    else
      match tail with
      | e :: tail2 => if sqdq e then some ([c], tail2) else some ([c], tail)
      | [] => some ([c], [])
  | [] => wsBacktrack1 0 ws cs

/-- json pattern `["']([A-Z0-9_]+)["']\s*:\s*["']?(.+?)["']?`. -/
def tryJsonKV (cs : List Char) : Option (RawMatch × List Char) :=
  match cs with
  | q1 :: r1 =>
    if sqdq q1 then
      match run1 capsChar r1 with
      | none => none
      | some (name, r2) =>
        match r2 with
        | q2 :: r3 =>
          if sqdq q2 then
            match r3.dropWhile wsJS with
            | ':' :: r5 =>
              (jsonValueTail r5).map (fun x =>
                (⟨some (String.mk name), some (String.mk x.1), none⟩, x.2))
            | _ => none
          else none
        | [] => none
    else none
  | [] => none

/-- yml/yaml/github/gitlab/circleci/azure pattern `([A-Z0-9_]+):\s*(.+)` with
    the `i` flag (so the name class is `[A-Za-z0-9_]`). -/
def tryYamlKV (cs : List Char) : Option (RawMatch × List Char) :=
  match run1 wordChar cs with
  | none => none
  | some (name, r1) =>
    match r1 with
    | ':' :: r2 =>
      (dotPlusAfterWs 0 r2).map (fun x => (⟨some (String.mk name), some (String.mk x.1), none⟩, x.2))
    | _ => none

/-- php pattern `\$([A-Za-z0-9_]+)\s*=\s*(.+);`. -/
def tryPhpAssign (cs : List Char) : Option (RawMatch × List Char) :=
  match cs with
  | '$' :: r1 =>
    match run1 wordChar r1 with
    | none => none
    | some (name, r2) =>
      match r2.dropWhile wsJS with
      | '=' :: r3 =>
        (dotPlusSemi r3).map (fun x => (⟨some (String.mk name), some (String.mk x.1), none⟩, x.2))
      | _ => none
  | _ => none

/-- java pattern `String\s+([A-Za-z0-9_]+)\s*=\s*(.+);`. -/
def tryJavaDecl (cs : List Char) : Option (RawMatch × List Char) :=
  match litP "String".data cs with
  | none => none
  | some r0 =>
    match run1 wsJS r0 with
    | none => none
    | some (_, r1) =>
      match run1 wordChar r1 with
      | none => none
      | some (name, r2) =>
        match r2.dropWhile wsJS with
        | '=' :: r3 =>
          (dotPlusSemi r3).map (fun x => (⟨some (String.mk name), some (String.mk x.1), none⟩, x.2))
        | _ => none

/-- kt pattern `val\s+([A-Za-z0-9_]+)\s*=\s*(.+)`. -/
def tryKtVal (cs : List Char) : Option (RawMatch × List Char) :=
  match litP "val".data cs with
  | none => none
  | some r0 =>
    match run1 wsJS r0 with
    | none => none
    | some (_, r1) =>
      match run1 wordChar r1 with
      | none => none
      | some (name, r2) =>
        match r2.dropWhile wsJS with
        | '=' :: r3 =>
          (dotPlusAfterWs 0 r3).map (fun x => (⟨some (String.mk name), some (String.mk x.1), none⟩, x.2))
        | _ => none

/-- go pattern `([A-Za-z0-9_]+)\s*:=\s*(.+)`. -/
def tryGoWalrus (cs : List Char) : Option (RawMatch × List Char) :=
  match run1 wordChar cs with
  | none => none
  | some (name, r1) =>
    match r1.dropWhile wsJS with
    | ':' :: '=' :: r2 =>
      (dotPlusAfterWs 0 r2).map (fun x => (⟨some (String.mk name), some (String.mk x.1), none⟩, x.2))
    | _ => none

/-- cs pattern `var\s+([A-Za-z0-9_]+)\s*=\s*(.+);`. -/
def tryCsDecl (cs : List Char) : Option (RawMatch × List Char) :=
  match litP "var".data cs with
  | none => none
  | some r0 =>
    match run1 wsJS r0 with
    | none => none
    | some (_, r1) =>
      match run1 wordChar r1 with
      | none => none
      | some (name, r2) =>
        match r2.dropWhile wsJS with
        | '=' :: r3 =>
          (dotPlusSemi r3).map (fun x => (⟨some (String.mk name), some (String.mk x.1), none⟩, x.2))
        | _ => none

/-- dockerfile pattern `ENV\s+([A-Z0-9_]+)\s+(.+)` with the `i` flag
    (so the name class is `[A-Za-z0-9_]`). -/
def tryDockerEnv (cs : List Char) : Option (RawMatch × List Char) :=
  match litCIP "env".data cs with
  | none => none
  | some r0 =>
    match run1 wsJS r0 with
    | none => none
    | some (_, r1) =>
      match run1 wordChar r1 with
      | none => none
      | some (name, r2) =>
        (dotPlusAfterWs 1 r2).map (fun x => (⟨some (String.mk name), some (String.mk x.1), none⟩, x.2))

/-- dockerfile pattern `ARG\s+([A-Z0-9_]+)=([^\n]+)` with the `i` flag. -/
def tryDockerArg (cs : List Char) : Option (RawMatch × List Char) :=
  match litCIP "arg".data cs with
  | none => none
  | some r0 =>
    match run1 wsJS r0 with
    | none => none
    | some (_, r1) =>
      match run1 wordChar r1 with
      | none => none
      | some (name, r2) =>
        match r2 with
        | '=' :: r3 =>
          (run1 (fun c => !(c == '\n')) r3).map (fun x =>
            (⟨some (String.mk name), some (String.mk x.1), none⟩, x.2))
        | _ => none

/-- Last occurrence of a pattern (case-insensitively) inside a line such
    that at least one character of the line follows it. -/
def lastCIOccWithTail (pat : List Char) (line : List Char) : Option Nat :=
  let n := line.length
  (List.range n).foldl
    (fun acc i =>
      if startsWithCI pat (line.drop i) && pat.length + i < n then some i else acc)
    none

/-- npmrc pattern `\/\/.*:_authToken=(.+)` with the `i` flag: a single
    capture group (so it populates `m[1]` only); the greedy `.*` selects
    the last `:_authToken=` on the line that leaves a nonempty value. -/
def tryNpmrcToken (cs : List Char) : Option (RawMatch × List Char) :=
  match litP "//".data cs with
  | none => none
  | some r1 =>
    let line := r1.takeWhile (fun d => !lineTermJS d)
    match lastCIOccWithTail ":_authToken=".data line with
    | some i =>
      some (⟨some (String.mk (line.drop (i + 12))), none, none⟩, r1.drop line.length)
    | none => none

/-- npmrc pattern `_auth\s*=\s*(.+)` with the `i` flag (single group). -/
def tryNpmrcAuth (cs : List Char) : Option (RawMatch × List Char) :=
  match litCIP "_auth".data cs with
  | none => none
  | some r0 =>
    match r0.dropWhile wsJS with
    | '=' :: r1 =>
      (dotPlusAfterWs 0 r1).map (fun x => (⟨some (String.mk x.1), none, none⟩, x.2))
    | _ => none

/-- yarnrc pattern `npmAuthToken:\s*(.+)` with the `i` flag (single group). -/
def tryYarnNpmAuthToken (cs : List Char) : Option (RawMatch × List Char) :=
  match litCIP "npmAuthToken:".data cs with
  | none => none
  | some r0 =>
    (dotPlusAfterWs 0 r0).map (fun x => (⟨some (String.mk x.1), none, none⟩, x.2))

/-- yarnrc pattern `_authToken\s*=\s*(.+)` with the `i` flag (single group). -/
def tryYarnAuthToken (cs : List Char) : Option (RawMatch × List Char) :=
  match litCIP "_authToken".data cs with
  | none => none
  | some r0 =>
    match r0.dropWhile wsJS with
    | '=' :: r1 =>
      (dotPlusAfterWs 0 r1).map (fun x => (⟨some (String.mk x.1), none, none⟩, x.2))
    | _ => none

/-! ## The matcher registry -/

inductive MatcherId where
  | jsDecl | tsDecl | vueProp | pyAssign | rbAssign | shExport | shAssign
  | jsonKV | yamlKV | phpAssign | javaDecl | ktVal | goWalrus | csDecl
  | dockerEnv | dockerArg | npmrcToken | npmrcAuth | yarnNpmAuthToken | yarnAuthToken
deriving Repr, DecidableEq

def execMatcher : MatcherId → List Char → List RawMatch
  | .jsDecl, cs => execMatches tryJsDecl cs
  | .tsDecl, cs => execMatches tryTsDecl cs
  | .vueProp, cs => execMatches tryVueProp cs
  | .pyAssign, cs => execMatches tryPyAssign cs
  | .rbAssign, cs => execMatches tryRbAssign cs
  | .shExport, cs => execMatches tryShExport cs
  | .shAssign, cs => execMatches tryShAssign cs
  | .jsonKV, cs => execMatches tryJsonKV cs
  | .yamlKV, cs => execMatches tryYamlKV cs
  | .phpAssign, cs => execMatches tryPhpAssign cs
  | .javaDecl, cs => execMatches tryJavaDecl cs
  | .ktVal, cs => execMatches tryKtVal cs
  | .goWalrus, cs => execMatches tryGoWalrus cs
  | .csDecl, cs => execMatches tryCsDecl cs
  | .dockerEnv, cs => execMatches tryDockerEnv cs
  | .dockerArg, cs => execMatches tryDockerArg cs
  | .npmrcToken, cs => execMatches tryNpmrcToken cs
  | .npmrcAuth, cs => execMatches tryNpmrcAuth cs
  | .yarnNpmAuthToken, cs => execMatches tryYarnNpmAuthToken cs
  | .yarnAuthToken, cs => execMatches tryYarnAuthToken cs

/-- The `MATCHERS` table from src/index.ts, keyed by extension. -/
def MATCHERS : List (String × List MatcherId) := [
  ("js", [.jsDecl]),
  ("ts", [.tsDecl]),
  ("vue", [.tsDecl, .vueProp]),
  ("py", [.pyAssign]),
  ("rb", [.rbAssign]),
  ("sh", [.shExport, .shAssign]),
  ("bash", [.shExport, .shAssign]),
  ("json", [.jsonKV]),
  ("yml", [.yamlKV]),
  ("yaml", [.yamlKV]),
  ("php", [.phpAssign]),
  ("java", [.javaDecl]),
  ("kt", [.ktVal]),
  ("go", [.goWalrus]),
  ("cs", [.csDecl]),
  ("dockerfile", [.dockerEnv, .dockerArg]),
  ("npmrc", [.npmrcToken, .npmrcAuth]),
  ("yarnrc", [.yarnNpmAuthToken, .yarnAuthToken]),
  ("github", [.yamlKV]),
  ("gitlab", [.yamlKV]),
  ("circleci", [.yamlKV]),
  ("azure", [.yamlKV])]

def lookupM (ext : String) : Option (List MatcherId) := MATCHERS.lookup ext

/-! ## Comment / markup stripping -/

def findAfterClose : List Char → Option (List Char)
  | '*' :: '/' :: rest => some rest
  | _ :: rest => findAfterClose rest
  | [] => none

/-- `replace(/\/\*[\s\S]*?\*\//g, "")`: each `/*` is deleted together with
    everything up to the first following `*/`; an unclosed `/*` stays. -/
def stripBlockComments : Nat → List Char → List Char
  | 0, cs => cs
  | fuel + 1, cs =>
    match cs with
    | '/' :: '*' :: rest =>
      (match findAfterClose rest with
       | some r => stripBlockComments fuel r
       | none => cs)
    | c :: rest => c :: stripBlockComments fuel rest
    | [] => []

/-- `replace(/\/\/.*$/gm, "")`: from `//` to the end of its line. -/
def stripLineComments : Nat → List Char → List Char
  | 0, cs => cs
  | fuel + 1, cs =>
    match cs with
    | '/' :: '/' :: rest => stripLineComments fuel (rest.dropWhile (fun c => !lineTermJS c))
    | c :: rest => c :: stripLineComments fuel rest
    | [] => []

/-- `stripComments` from src/index.ts: block comments, then line comments. -/
def stripComments (s : String) : String :=
  let b := stripBlockComments (s.data.length + 1) s.data
  String.mk (stripLineComments (b.length + 1) b)

def findAfterCI (close : List Char) : List Char → Option (List Char)
  | [] => none
  | c :: cs =>
    match litCIP close (c :: cs) with
    | some r => some r
    | none => findAfterCI close cs

/-- One of the two lazy tag-removal replaces of `stripVueSections`. -/
def stripTagged (openTag closeTag : List Char) : Nat → List Char → List Char
  | 0, cs => cs
  | fuel + 1, cs =>
    match cs with
    | [] => []
    | c :: rest =>
      match litCIP openTag (c :: rest) with
      | some r =>
        (match findAfterCI closeTag r with
         | some r2 => stripTagged openTag closeTag fuel r2
         | none => c :: stripTagged openTag closeTag fuel rest)
      | none => c :: stripTagged openTag closeTag fuel rest

/-- `stripVueSections` from src/index.ts. -/
def stripVueSections (s : String) : String :=
  let a := stripTagged "<template".data "</template>".data (s.data.length + 1) s.data
  String.mk (stripTagged "<style".data "</style>".data (a.length + 1) a)

/-! ## Usage patterns -/

/-- `process\.env\.([A-Z0-9_]+)`. -/
def tryProcessEnv (cs : List Char) : Option (String × List Char) :=
  match litP "process.env.".data cs with
  | none => none
  | some r => (run1 capsChar r).map (fun x => (String.mk x.1, x.2))

/-- `os\.environ\[['"]([A-Z0-9_]+)['"]\]` (the two quotes are independent). -/
def tryOsEnviron (cs : List Char) : Option (String × List Char) :=
  match litP "os.environ[".data cs with
  | none => none
  | some r =>
    match r with
    | q :: r1 =>
      if sqdq q then
        match run1 capsChar r1 with
        | none => none
        | some (nm, r2) =>
          match r2 with
          | q2 :: ']' :: r3 => if sqdq q2 then some (String.mk nm, r3) else none
          | _ => none
      else none
    | [] => none

/-- `\$([A-Z0-9_]+)`. -/
def tryDollar (cs : List Char) : Option (String × List Char) :=
  match cs with
  | '$' :: r => (run1 capsChar r).map (fun x => (String.mk x.1, x.2))
  | _ => none

/-- The three usage patterns, run over the whole file in source order. -/
def usageNames (code : List Char) : List String :=
  execMatches tryProcessEnv code ++ execMatches tryOsEnviron code ++
    execMatches tryDollar code

/-! ## The scan result object and its mutation helpers -/

structure Suggestion where
  file : String
  value : Option String
  severity : Option Severity
deriving Repr, DecidableEq

structure EnvScanResultEntry where
  usage : List String
  suggested : List Suggestion
deriving Repr, DecidableEq

/-- A JS record, modelled as an insertion-ordered association list. -/
abbrev EnvScanResult := List (String × EnvScanResultEntry)

def emptyEntry : EnvScanResultEntry := ⟨[], []⟩

/-- `result[k] ??= {...}` followed by a mutation of `result[k]`. -/
def upsert (r : EnvScanResult) (k : String) (f : EnvScanResultEntry → EnvScanResultEntry) :
    EnvScanResult :=
  match r with
  | [] => [(k, f emptyEntry)]
  | (k', e) :: rest => if k' == k then (k', f e) :: rest else (k', e) :: upsert rest k f

/-- `addUsage` from src/index.ts (taking the captured name directly). -/
def addUsage (name file : String) (r : EnvScanResult) : EnvScanResult :=
  upsert r name (fun e => if e.usage.contains file then e else ⟨e.usage ++ [file], e.suggested⟩)

/-- The suggestion push of the candidate pass (lines 322-331). -/
def pushSuggestion (key : String) (sg : Suggestion) (r : EnvScanResult) : EnvScanResult :=
  upsert r key (fun e =>
    if e.suggested.any (fun s => s.file == sg.file) then e
    else ⟨e.usage, e.suggested ++ [sg]⟩)

/-- The subdirectory merge (lines 281-285): concatenation, no re-deduplication. -/
def mergeResult (acc nested : EnvScanResult) : EnvScanResult :=
  nested.foldl
    (fun a ke => upsert a ke.1 (fun cur => ⟨cur.usage ++ ke.2.usage, cur.suggested ++ ke.2.suggested⟩))
    acc

def lookupEntry (r : EnvScanResult) (k : String) : Option EnvScanResultEntry :=
  match r with
  | [] => none
  | (k', e) :: rest => if k' == k then some e else lookupEntry rest k

def entryFor (r : EnvScanResult) (k : String) : EnvScanResultEntry :=
  (lookupEntry r k).getD emptyEntry

def usageFor (r : EnvScanResult) (k : String) : List String := (entryFor r k).usage

def suggFor (r : EnvScanResult) (k : String) : List Suggestion := (entryFor r k).suggested

def keyPresent (r : EnvScanResult) (k : String) : Bool := (lookupEntry r k).isSome

/-! ## Per-file scanning -/

/-- `entry.name.match(/\.(\w+)$/)?.[1]?.toLowerCase()`: the run after the
    last dot, when it is nonempty, reaches the end of the name and consists
    of word characters only (`\w` cannot cross a dot, so only the last dot
    can anchor a match). -/
def extOf (name : String) : Option String :=
  let rev := name.data.reverse
  let sufRev := rev.takeWhile (fun c => !(c == '.'))
  if (rev.drop sufRev.length).head? == some '.' && !sufRev.isEmpty &&
      sufRev.all wordChar then
    some (String.mk (lcL sufRev.reverse))
  else none

/-- The jsx/tsx aliasing (line 292). -/
def mappedExtOf (name : String) : Option String :=
  (extOf name).map (fun e => if e == "jsx" then "js" else if e == "tsx" then "ts" else e)

/-- The initializer guard regex `(process\.env|os\.environ|\$[A-Z0-9_]+)`. -/
def dollarCapsL : List Char → Bool
  | [] => false
  | c :: cs =>
    (c == '$' && (match cs.head? with | some d => capsChar d | none => false)) || dollarCapsL cs

def envInitGuard (s : String) : Bool :=
  csub "process.env" s || csub "os.environ" s || dollarCapsL s.data

def jsTs (mapped : String) : Bool := mapped == "js" || mapped == "ts"

/-- The body of the candidate loop (lines 311-331), after the capture
    groups have been selected: `some (key, suggestion)` exactly when the
    loop would push a suggestion for this match. -/
def candCore (fullPath : String) (keyOpt initOpt : Option String) :
    Option (String × Suggestion) :=
  match keyOpt with
  | none => none
  | some key =>
    if key == "" then none
    else if (match initOpt with | some i => !(i == "") && envInitGuard i | none => false) then none
    else
      let literal : Option String :=
        match initOpt with
        | some i => if i == "" then none else extractStringLiteral i
        | none => none
      match candSeverity key literal with
      | none => none
      | some sev => some (key, ⟨fullPath, literal, some sev⟩)

/-- Capture-group selection (line 312-313) feeding the loop body. -/
def candResult (mapped fullPath : String) (m : RawMatch) : Option (String × Suggestion) :=
  candCore fullPath (if jsTs mapped then m.g2 else m.g1)
    ((if jsTs mapped then m.g3 else m.g2).map jsTrim)

def processCand (mapped fullPath : String) (acc : EnvScanResult) (m : RawMatch) :
    EnvScanResult :=
  match candResult mapped fullPath m with
  | none => acc
  | some (key, sg) => pushSuggestion key sg acc

/-- `path.join(dir, entry.name)` for the simple names the model admits. -/
def pjoin (dir name : String) : String := dir ++ "/" ++ name

/-- Preprocessing of one file (lines 296-297). -/
def preprocessCode (mapped : String) (content : String) : List Char :=
  let code := stripComments content
  if mapped == "vue" then (stripVueSections code).data else code.data

def candMatches (ids : List MatcherId) (code : List Char) : List RawMatch :=
  (ids.map (fun i => execMatcher i code)).flatten

/-- Scanning one regular file (the file branch of `scanForEnv`). -/
def scanFile (dirPath name content : String) (acc : EnvScanResult) : EnvScanResult :=
  match mappedExtOf name with
  | none => acc
  | some mapped =>
    match lookupM mapped with
    | none => acc
    | some ids =>
      let fullPath := pjoin dirPath name
      let code := preprocessCode mapped content
      let acc1 := (usageNames code).foldl (fun a nm => addUsage nm fullPath a) acc
      (candMatches ids code).foldl (fun a m => processCand mapped fullPath a m) acc1

/-! ## The directory walk -/

inductive FSEntry where
  | file : String → String → FSEntry
  | dir : String → List FSEntry → FSEntry

def IGNORE_DIRS : List String := ["node_modules", ".git", "dist", "build", ".next"]

mutual

def scanEntries (dirPath : String) : List FSEntry → EnvScanResult → EnvScanResult
  | [], acc => acc
  | e :: rest, acc => scanEntries dirPath rest (scanEntry dirPath e acc)

def scanEntry (dirPath : String) : FSEntry → EnvScanResult → EnvScanResult
  | .file name content, acc => scanFile dirPath name content acc
  | .dir name children, acc =>
    if IGNORE_DIRS.contains name then acc
    else mergeResult acc (scanEntries (pjoin dirPath name) children [])

end

/-- `scanForEnv` from src/index.ts over an explicit directory listing. -/
def scanForEnv (dirPath : String) (entries : List FSEntry) : EnvScanResult :=
  scanEntries dirPath entries []

/-! ## Lemmas: splitIdentifier agrees with its specification (C9) -/

theorem upperNotLowerDigit (c : Char) (h : upperAZ c = true) :
    (lowerAZ c || digit09 c) = false := by
  simp only [upperAZ, Bool.and_eq_true, decide_eq_true_eq] at h
  obtain ⟨h1, h2⟩ := h
  have n1 : (65 : Nat) ≤ c.toNat := h1
  have n2 : c.toNat ≤ 90 := h2
  simp only [lowerAZ, digit09, Bool.or_eq_false_iff, Bool.and_eq_false_iff]
  constructor
  · left
    simp only [decide_eq_false_iff_not]
    intro hc
    have : (97 : Nat) ≤ c.toNat := hc
    omega
  · right
    simp only [decide_eq_false_iff_not]
    intro hc
    have : c.toNat ≤ 57 := hc
    omega

theorem camelSpaceEqSpec : ∀ cs, camelSpace cs = camelSpaceSpec cs
  | [] => rfl
  | [c] => rfl
  | c1 :: c2 :: rest => by
    simp only [camelSpace, camelSpaceSpec]
    by_cases h : ((lowerAZ c1 || digit09 c1) && upperAZ c2) = true
    · simp only [h, if_true]
      have hup : upperAZ c2 = true := (Bool.and_eq_true _ _ |>.mp h).2
      have h2 : camelSpaceSpec (c2 :: rest) = c2 :: camelSpaceSpec rest := by
        cases rest with
        | nil => rfl
        | cons c3 r =>
          simp only [camelSpaceSpec]
          rw [upperNotLowerDigit c2 hup]
          simp
      rw [h2, camelSpaceEqSpec rest]
      simp
    · rw [if_neg h, if_neg h, camelSpaceEqSpec (c2 :: rest)]
      simp

theorem wordsSpecFIrrel : ∀ f1 f2 cs, cs.length < f1 → cs.length < f2 →
    wordsSpecF f1 cs = wordsSpecF f2 cs
  | 0, _, _, h1, _ => absurd h1 (by omega)
  | _ + 1, 0, _, _, h2 => absurd h2 (by omega)
  | _ + 1, _ + 1, [], _, _ => rfl
  | f1 + 1, f2 + 1, c :: cs, h1, h2 => by
    have l1 : cs.length < f1 := by simpa using Nat.lt_of_succ_lt_succ (by simpa using h1)
    have l2 : cs.length < f2 := by simpa using Nat.lt_of_succ_lt_succ (by simpa using h2)
    simp only [wordsSpecF]
    by_cases hc : sepChar c = true
    · rw [if_pos hc, if_pos hc]
      exact wordsSpecFIrrel f1 f2 cs l1 l2
    · rw [if_neg hc, if_neg hc]
      congr 1
      have hd : ((c :: cs).dropWhile (fun d => !sepChar d)).length ≤ cs.length := by
        rw [List.dropWhile_cons_of_pos (by simp [hc])]
        exact dropWhileLenLe _ _
      exact wordsSpecFIrrel f1 f2 _ (Nat.lt_of_le_of_lt hd l1) (Nat.lt_of_le_of_lt hd l2)

theorem wordsSpec_nil : wordsSpec [] = [] := rfl

theorem wordsSpec_cons_sep {c : Char} {cs : List Char} (h : sepChar c = true) :
    wordsSpec (c :: cs) = wordsSpec cs := by
  show wordsSpecF ((c :: cs).length + 1) (c :: cs) = wordsSpecF (cs.length + 1) cs
  simp only [List.length_cons, wordsSpecF, if_pos h]

theorem wordsSpec_cons_nonsep {c : Char} {cs : List Char} (h : sepChar c = false) :
    wordsSpec (c :: cs) =
      ((c :: cs).takeWhile (fun d => !sepChar d)) ::
        wordsSpec ((c :: cs).dropWhile (fun d => !sepChar d)) := by
  show wordsSpecF ((c :: cs).length + 1) (c :: cs) = _
  simp only [List.length_cons, wordsSpecF, if_neg (by simp [h] : ¬sepChar c = true)]
  congr 1
  have hd : ((c :: cs).dropWhile (fun d => !sepChar d)).length ≤ cs.length := by
    rw [List.dropWhile_cons_of_pos (by simp [h])]
    exact dropWhileLenLe _ _
  exact wordsSpecFIrrel _ _ _ (by omega) (by omega)

theorem wordsSpecDropSep : ∀ cs : List Char, wordsSpec (cs.dropWhile sepChar) = wordsSpec cs
  | [] => rfl
  | c :: cs => by
    by_cases h : sepChar c = true
    · rw [List.dropWhile_cons_of_pos h, wordsSpecDropSep cs, wordsSpec_cons_sep h]
    · rw [List.dropWhile_cons_of_neg (by simp [h])]

theorem wordsSpecTokensNonempty : ∀ cs : List Char, ∀ t ∈ wordsSpec cs, t ≠ []
  | [], t, ht => by simp [wordsSpec_nil] at ht
  | c :: cs, t, ht => by
    by_cases h : sepChar c = true
    · rw [wordsSpec_cons_sep h] at ht
      exact wordsSpecTokensNonempty cs t ht
    · rw [wordsSpec_cons_nonsep (by simpa using h), List.mem_cons] at ht
      rcases ht with ht | ht
      · subst ht
        rw [List.takeWhile_cons_of_pos (by simp [h])]
        simp
      · have hd : ((c :: cs).dropWhile (fun d => !sepChar d)) = cs.dropWhile (fun d => !sepChar d) :=
          List.dropWhile_cons_of_pos (by simp [h])
        rw [hd] at ht
        have : (cs.dropWhile (fun d => !sepChar d)).length ≤ cs.length := dropWhileLenLe _ _
        exact wordsSpecTokensNonempty _ t ht
termination_by cs => cs.length
decreasing_by
  · simp
  · simp only [List.length_cons]
    exact Nat.lt_succ_of_le (dropWhileLenLe _ _)

theorem splitSepsFStructure : ∀ fuel (cs : List Char), cs.length < fuel →
    ∃ ts, splitSepsF fuel cs = cs.takeWhile (fun d => !sepChar d) :: ts ∧
      ts.filter (fun t => !t.isEmpty) = wordsSpec (cs.dropWhile (fun d => !sepChar d))
  | 0, _, h => absurd h (by omega)
  | _ + 1, [], _ => ⟨[], by simp [splitSepsF, wordsSpec_nil]⟩
  | fuel + 1, c :: cs, h => by
    have hlen : cs.length < fuel := by
      have := Nat.lt_of_succ_lt_succ (by simpa using h)
      simpa using this
    by_cases hc : sepChar c = true
    · refine ⟨splitSepsF fuel (cs.dropWhile sepChar), ?_, ?_⟩
      · simp only [splitSepsF, if_pos hc]
        rw [List.takeWhile_cons_of_neg (by simp [hc])]
      · have hdlen : (cs.dropWhile sepChar).length < fuel :=
          Nat.lt_of_le_of_lt (dropWhileLenLe _ _) hlen
        obtain ⟨ts', h1, h2⟩ := splitSepsFStructure fuel (cs.dropWhile sepChar) hdlen
        rw [h1, List.filter_cons]
        have hdropCons : List.dropWhile (fun d => !sepChar d) (c :: cs) = c :: cs := by
          rw [List.dropWhile_cons]
          simp [hc]
        rw [hdropCons]
        cases hdw : cs.dropWhile sepChar with
        | nil =>
          rw [hdw] at h2
          simp only [List.takeWhile_nil, List.isEmpty_nil, Bool.not_true,
            Bool.false_eq_true, if_false]
          rw [h2, List.dropWhile_nil, wordsSpec_nil, wordsSpec_cons_sep hc,
            ← wordsSpecDropSep cs, hdw, wordsSpec_nil]
        | cons d0 ds =>
          have hd0 : sepChar d0 = false := by
            have hmem : d0 ∈ cs.dropWhile sepChar := by rw [hdw]; simp
            have := List.head_dropWhile_not sepChar cs
            rw [hdw] at this
            simpa using this (by simp)
          have htak : (d0 :: ds).takeWhile (fun d => !sepChar d) =
              d0 :: ds.takeWhile (fun d => !sepChar d) :=
            List.takeWhile_cons_of_pos (by simp [hd0])
          rw [hdw] at h2
          rw [htak]
          simp only [List.isEmpty_cons, Bool.not_false, if_true]
          rw [wordsSpec_cons_sep hc, ← wordsSpecDropSep cs, hdw,
            wordsSpec_cons_nonsep hd0, htak, h2]
    · have hcf : sepChar c = false := by simpa using hc
      obtain ⟨ts', h1, h2⟩ := splitSepsFStructure fuel cs hlen
      refine ⟨ts', ?_, ?_⟩
      · simp only [splitSepsF, if_neg hc]
        rw [h1, List.takeWhile_cons_of_pos (by simp [hcf])]
      · have hdropCons : List.dropWhile (fun d => !sepChar d) (c :: cs) =
            List.dropWhile (fun d => !sepChar d) cs := by
          rw [List.dropWhile_cons]
          simp [hcf]
        rw [hdropCons]
        exact h2

theorem filterSplitSeps (cs : List Char) :
    (splitSeps cs).filter (fun t => !t.isEmpty) = wordsSpec cs := by
  obtain ⟨ts, h1, h2⟩ := splitSepsFStructure (cs.length + 1) cs (by omega)
  show (splitSepsF (cs.length + 1) cs).filter (fun t => !t.isEmpty) = wordsSpec cs
  rw [h1, List.filter_cons]
  cases cs with
  | nil =>
    simp only [List.takeWhile_nil, List.isEmpty_nil, Bool.not_true, Bool.false_eq_true, if_false]
    rw [h2, List.dropWhile_nil]
  | cons c cs' =>
    by_cases hs : sepChar c = true
    · have htak : (c :: cs').takeWhile (fun d => !sepChar d) = [] := by
        rw [List.takeWhile_cons]
        simp [hs]
      have hdrop : (c :: cs').dropWhile (fun d => !sepChar d) = c :: cs' := by
        rw [List.dropWhile_cons]
        simp [hs]
      rw [htak]
      simp only [List.isEmpty_nil, Bool.not_true, Bool.false_eq_true, if_false]
      rw [h2, hdrop]
    · have hsf : sepChar c = false := by simpa using hs
      have htak : (c :: cs').takeWhile (fun d => !sepChar d) =
          c :: cs'.takeWhile (fun d => !sepChar d) := by
        rw [List.takeWhile_cons]
        simp [hsf]
      rw [htak]
      simp only [List.isEmpty_cons, Bool.not_false, if_true]
      rw [h2, wordsSpec_cons_nonsep hsf, htak]

theorem stringMkNonemptyIff (w : List Char) :
    (decide (String.mk (lcL w) ≠ "")) = !w.isEmpty := by
  cases w with
  | nil => simp [lcL]
  | cons c t => simp [lcL, String.ext_iff]

theorem splitIdentifierAgrees (name : String) :
    splitIdentifier name = splitIdentifierSpec name := by
  unfold splitIdentifier splitIdentifierSpec
  rw [← camelSpaceEqSpec name.data]
  have hfil : ∀ l : List (List Char),
      (l.map (fun w => String.mk (lcL w))).filter (fun w => w ≠ "") =
        (l.filter (fun t => !t.isEmpty)).map (fun w => String.mk (lcL w)) := by
    intro l
    rw [List.filter_map]
    congr 1
    apply List.filter_congr
    intro w _
    simpa using stringMkNonemptyIff w
  rw [hfil, hfil, filterSplitSeps]
  congr 1
  rw [List.filter_eq_self.mpr]
  intro t ht
  simpa using wordsSpecTokensNonempty _ t ht


/-! ## Lemmas: extractStringLiteral characterised (C7) -/

theorem extractStringLiteralAgrees (raw : String) :
    extractStringLiteral raw = extractStringLiteralSpec raw := by
  unfold extractStringLiteral extractStringLiteralSpec jsTrim
  cases ht : trimL raw.data with
  | nil => simp
  | cons c cs =>
    cases cs with
    | nil => simp [List.getLast?]
    | cons c2 cs' =>
      simp only [String.data]
      rw [List.head?_cons, List.getLast?_cons_cons]
      cases hlast : (c2 :: cs').getLast? with
      | none =>
        exfalso
        rw [List.getLast?_eq_none_iff] at hlast
        exact List.cons_ne_nil _ _ hlast
      | some q2 =>
        have hlen : (decide (2 ≤ (c :: c2 :: cs').length)) = true := by
          simp only [List.length_cons, decide_eq_true_eq]
          omega
        by_cases hq : quoteJS c = true
        · by_cases he : (q2 == c) = true
          · have hbeq : ((c2 :: cs').getLast? == some c) = true := by
              rw [hlast]
              simpa using he
            simp only [hq, he, hbeq, hlen, List.isEmpty_cons, Bool.not_false,
              Bool.and_true, Bool.true_and, if_true]
            simp [he]
          · have hbeq : ((c2 :: cs').getLast? == some c) = false := by
              rw [hlast]
              simpa using he
            simp only [hq, he, hbeq, hlen, List.isEmpty_cons, Bool.not_false,
              Bool.and_true, Bool.true_and, Bool.and_false, Bool.false_and, if_false]
            simp [he]
        · have hqf : quoteJS c = false := by simpa using hq
          simp only [hqf, Bool.false_and, Bool.and_false, if_false]
          simp

/-! ## Lemmas: the rule engine computes an order-independent maximum (C3) -/

/-- The severities of the rules that match a target. -/
def matchingSeverities (target : String) (rules : List Rule) : List Severity :=
  (rules.filter (fun r => r.test target)).map (fun r => r.severity)

/-- Maximum of a list of severities (absent on the empty list). -/
def listMaxSeverity (l : List Severity) : Option Severity :=
  l.foldl (fun acc s => maxSeverity acc (some s)) none

theorem getSevFoldGen : ∀ (rules : List Rule) (target : String) (acc : Option Severity),
    rules.foldl
      (fun severity r => if r.test target then maxSeverity severity (some r.severity) else severity)
      acc =
    (matchingSeverities target rules).foldl (fun a s => maxSeverity a (some s)) acc
  | [], _, _ => rfl
  | r :: rs, target, acc => by
    simp only [matchingSeverities, List.filter_cons, List.foldl_cons]
    by_cases h : r.test target = true
    · simp only [h, if_true, List.map_cons, List.foldl_cons]
      exact getSevFoldGen rs target _
    · simp only [h, Bool.false_eq_true, if_false]
      exact getSevFoldGen rs target acc

theorem getSeverityFromRulesEq (target : String) (rules : List Rule) :
    getSeverityFromRules target rules = listMaxSeverity (matchingSeverities target rules) :=
  getSevFoldGen rules target none

deriving instance Fintype for Severity

theorem maxSevStepComm : ∀ (a : Option Severity) (x y : Severity),
    maxSeverity (maxSeverity a (some x)) (some y) =
      maxSeverity (maxSeverity a (some y)) (some x) := by decide

theorem foldlMaxPerm {l1 l2 : List Severity} (h : l1.Perm l2) : ∀ acc : Option Severity,
    l1.foldl (fun a s => maxSeverity a (some s)) acc =
      l2.foldl (fun a s => maxSeverity a (some s)) acc := by
  induction h with
  | nil => intro acc; rfl
  | cons x _ ih => intro acc; simp only [List.foldl_cons]; exact ih _
  | swap x y l => intro acc; simp only [List.foldl_cons]; rw [maxSevStepComm]
  | trans _ _ ih1 ih2 => intro acc; rw [ih1, ih2]

theorem foldlMaxSomeNeNone : ∀ (l : List Severity) (v : Severity),
    l.foldl (fun a s => maxSeverity a (some s)) (some v) ≠ none
  | [], v => by simp [List.foldl_nil]
  | x :: l, v => by
    simp only [List.foldl_cons, maxSeverity]
    split
    · exact foldlMaxSomeNeNone l v
    · exact foldlMaxSomeNeNone l x

theorem listMaxSeverityNoneIff (l : List Severity) : listMaxSeverity l = none ↔ l = [] := by
  cases l with
  | nil => simp [listMaxSeverity]
  | cons x l =>
    simp only [listMaxSeverity, List.foldl_cons]
    have : maxSeverity none (some x) = some x := rfl
    rw [this]
    constructor
    · intro h
      exact absurd h (foldlMaxSomeNeNone l x)
    · intro h
      exact absurd h (List.cons_ne_nil x l)

theorem maxSevPair (v x : Severity) :
    maxSeverity (some v) (some x) = some v ∨ maxSeverity (some v) (some x) = some x := by
  simp only [maxSeverity]
  split
  · exact Or.inl rfl
  · exact Or.inr rfl

theorem maxSevPairGe (v x : Severity) :
    ∃ w, maxSeverity (some v) (some x) = some w ∧
      severityRank v ≤ severityRank w ∧ severityRank x ≤ severityRank w := by
  revert v x
  decide

theorem foldlMaxSomeBound : ∀ (l : List Severity) (v w : Severity),
    l.foldl (fun a s => maxSeverity a (some s)) (some v) = some w →
      (w = v ∨ w ∈ l) ∧ severityRank v ≤ severityRank w ∧
        ∀ x ∈ l, severityRank x ≤ severityRank w
  | [], v, w, h => by
    simp only [List.foldl_nil, Option.some.injEq] at h
    subst h
    exact ⟨Or.inl rfl, Nat.le_refl _, by simp⟩
  | x :: l, v, w, h => by
    simp only [List.foldl_cons] at h
    obtain ⟨u, hu, huv, hux⟩ := maxSevPairGe v x
    rw [hu] at h
    obtain ⟨hmem, hvu, hall⟩ := foldlMaxSomeBound l u w h
    refine ⟨?_, Nat.le_trans huv hvu, ?_⟩
    · rcases hmem with rfl | hm
      · rcases maxSevPair v x with hc | hc <;> rw [hc] at hu <;>
          simp only [Option.some.injEq] at hu
        · exact Or.inl hu.symm
        · exact Or.inr (by simp [hu])
      · exact Or.inr (List.mem_cons_of_mem x hm)
    · intro y hy
      rw [List.mem_cons] at hy
      rcases hy with rfl | hy
      · exact Nat.le_trans hux hvu
      · exact hall y hy

theorem listMaxSeverityIsMax (l : List Severity) (s : Severity)
    (h : listMaxSeverity l = some s) :
    s ∈ l ∧ ∀ x ∈ l, severityRank x ≤ severityRank s := by
  cases l with
  | nil => simp [listMaxSeverity] at h
  | cons x l =>
    simp only [listMaxSeverity, List.foldl_cons] at h
    have hstep : maxSeverity none (some x) = some x := rfl
    rw [hstep] at h
    obtain ⟨hmem, hxs, hall⟩ := foldlMaxSomeBound l x s h
    refine ⟨?_, ?_⟩
    · rcases hmem with rfl | hm
      · simp
      · exact List.mem_cons_of_mem x hm
    · intro y hy
      rw [List.mem_cons] at hy
      rcases hy with rfl | hy
      · exact hxs
      · exact hall y hy


/-- Modelled from the claim text: overall severity is the maximum of the
    name classification and (when a literal was extracted) the value
    classification, falling back to MEDIUM when both are absent but one of
    the heuristic classifiers fires, absent otherwise. -/
def severitySpec (key : String) (literal : Option String) : Option Severity :=
  let nameSev := getSeverityFromRules key SUSPICIOUS_NAMES
  let valSev := match literal with
    | some v => getSeverityFromRules v SUSPICIOUS_VALUES
    | none => none
  match maxSeverity nameSev valSev with
  | some s => some s
  | none =>
    if looksSensitiveName key ||
        (match literal with | some v => looksLikeSecretLiteral v | none => false) then
      some Severity.MEDIUM
    else none

theorem maxSeverityNoneRight : ∀ a : Option Severity, maxSeverity a none = a
  | none => rfl
  | some _ => rfl

theorem candSeverityEqSpec (key : String) (literal : Option String) :
    candSeverity key literal = severitySpec key literal := by
  cases literal with
  | none =>
    simp only [candSeverity, severitySpec, maxSeverityNoneRight]
  | some v =>
    by_cases hv : v = ""
    · subst hv
      simp only [candSeverity, severitySpec]
      have h1 : getSeverityFromRules "" SUSPICIOUS_VALUES = none := by decide
      have h2 : looksLikeSecretLiteral "" = false := by decide
      simp [h1, h2, maxSeverityNoneRight]
    · simp only [candSeverity, severitySpec]
      simp [hv]

theorem processCandNone (mapped p : String) (acc : EnvScanResult) (m : RawMatch)
    (h : candResult mapped p m = none) : processCand mapped p acc m = acc := by
  unfold processCand
  rw [h]

theorem candCoreLink (fullPath : String) (keyOpt initOpt : Option String) (key : String)
    (sg : Suggestion) (h : candCore fullPath keyOpt initOpt = some (key, sg)) :
    sg.severity = candSeverity key sg.value ∧ candSeverity key sg.value ≠ none := by
  unfold candCore at h
  cases keyOpt with
  | none => exact absurd h (by simp)
  | some key' =>
    dsimp only at h
    by_cases hke : (key' == "") = true
    · rw [if_pos hke] at h
      exact absurd h (by simp)
    · rw [if_neg hke] at h
      split at h
      · exact absurd h (by simp)
      · set literal := (match initOpt with
          | some i => if (i == "") = true then none else extractStringLiteral i
          | none => none) with hlit
        cases hs : candSeverity key' literal with
        | none =>
          rw [hs] at h
          exact absurd h (by simp)
        | some sev =>
          rw [hs] at h
          simp only [Option.some.injEq, Prod.mk.injEq] at h
          obtain ⟨hkey, hsg⟩ := h
          subst hkey
          rw [← hsg]
          simp only []
          rw [hs]
          simp

theorem candResultSeverityLink (mapped p : String) (m : RawMatch) (key : String)
    (sg : Suggestion) (h : candResult mapped p m = some (key, sg)) :
    sg.severity = candSeverity key sg.value ∧ candSeverity key sg.value ≠ none :=
  candCoreLink p _ _ key sg h

/-! ## Lemmas: environment-accessor initializers are skipped (C2) -/

/-- Modelled from the claim text: the text contains an environment-accessor
    expression `process.env.NAME`. -/
def specEnvAccessorL : List Char → Bool
  | [] => false
  | c :: cs =>
    (match litP "process.env.".data (c :: cs) with
     | some r => (match r.head? with | some d => capsChar d | none => false)
     | none => false) || specEnvAccessorL cs

/-- Modelled from the claim text: the text contains an env-file dereference
    shaped like `os.environ['NAME']` (either quote character). -/
def specOsEnvironL : List Char → Bool
  | [] => false
  | c :: cs => (tryOsEnviron (c :: cs)).isSome || specOsEnvironL cs

theorem litPStartsWith : ∀ (pat cs r : List Char), litP pat cs = some r →
    startsWithL pat cs = true
  | [], _, _, _ => rfl
  | p :: ps, [], r, h => by simp [litP] at h
  | p :: ps, c :: cs, r, h => by
    simp only [litP] at h
    by_cases hpc : (p == c) = true
    · rw [if_pos hpc] at h
      simp only [startsWithL, hpc, Bool.true_and]
      exact litPStartsWith ps cs r h
    · rw [if_neg hpc] at h
      exact absurd h (by simp)

theorem startsWithLAppend : ∀ (p q cs : List Char), startsWithL (p ++ q) cs = true →
    startsWithL p cs = true
  | [], _, _, _ => rfl
  | a :: p, q, [], h => by simp [startsWithL] at h
  | a :: p, q, c :: cs, h => by
    simp only [List.cons_append, startsWithL, Bool.and_eq_true] at h ⊢
    exact ⟨h.1, startsWithLAppend p q cs h.2⟩

theorem containsOfStartsAt : ∀ cs : List Char, specEnvAccessorL cs = true →
    containsL "process.env".data cs = true
  | [], h => by simp [specEnvAccessorL] at h
  | c :: cs, h => by
    simp only [specEnvAccessorL, Bool.or_eq_true] at h
    rcases h with h | h
    · cases hl : litP "process.env.".data (c :: cs) with
      | none => rw [hl] at h; simp at h
      | some r =>
        have hs : startsWithL "process.env.".data (c :: cs) = true := litPStartsWith _ _ _ hl
        have : startsWithL ("process.env".data ++ ".".data) (c :: cs) = true := hs
        have hsw := startsWithLAppend _ _ _ this
        simp only [containsL, Bool.or_eq_true]
        exact Or.inl hsw
    · simp only [containsL, Bool.or_eq_true]
      exact Or.inr (containsOfStartsAt cs h)

theorem osEnvironStarts (cs : List Char) (h : (tryOsEnviron cs).isSome = true) :
    startsWithL "os.environ".data cs = true := by
  unfold tryOsEnviron at h
  cases hl : litP "os.environ[".data cs with
  | none => rw [hl] at h; simp at h
  | some r =>
    have hs : startsWithL "os.environ[".data cs = true := litPStartsWith _ _ _ hl
    have : startsWithL ("os.environ".data ++ "[".data) cs = true := hs
    exact startsWithLAppend _ _ _ this

theorem containsOsEnviron : ∀ cs : List Char, specOsEnvironL cs = true →
    containsL "os.environ".data cs = true
  | [], h => by simp [specOsEnvironL] at h
  | c :: cs, h => by
    simp only [specOsEnvironL, Bool.or_eq_true] at h
    simp only [containsL, Bool.or_eq_true]
    rcases h with h | h
    · exact Or.inl (osEnvironStarts _ h)
    · exact Or.inr (containsOsEnviron cs h)

/-- A text matching one of the three claim-side patterns trips the guard
    regex of line 314. -/
theorem envGuardOfSpecPatterns (s : String)
    (h : specEnvAccessorL s.data = true ∨ specOsEnvironL s.data = true ∨
      dollarCapsL s.data = true) :
    envInitGuard s = true := by
  unfold envInitGuard csub
  simp only [Bool.or_eq_true]
  rcases h with h | h | h
  · exact Or.inl (Or.inl (containsOfStartsAt s.data h))
  · exact Or.inl (Or.inr (containsOsEnviron s.data h))
  · exact Or.inr h

theorem specPatternsNonempty (s : String)
    (h : specEnvAccessorL s.data = true ∨ specOsEnvironL s.data = true ∨
      dollarCapsL s.data = true) :
    (s == "") = false := by
  cases hd : s.data with
  | nil =>
    exfalso
    rw [hd] at h
    rcases h with h | h | h <;> simp [specEnvAccessorL, specOsEnvironL, dollarCapsL] at h
  | cons c cs =>
    have : s ≠ "" := by
      intro he
      rw [he] at hd
      simp at hd
    simpa using this

theorem lookupMemM : ∀ (l : List (String × List MatcherId)) (a : String) (b : List MatcherId),
    l.lookup a = some b → (a, b) ∈ l
  | [], _, _, h => by simp [List.lookup] at h
  | (k, v) :: l, a, b, h => by
    simp only [List.lookup] at h
    by_cases hk : (a == k) = true
    · rw [hk] at h
      dsimp only at h
      simp only [Option.some.injEq] at h
      subst h
      have : a = k := by simpa using hk
      subst this
      exact List.mem_cons_self _ _
    · have hkf : (a == k) = false := by simpa using hk
      rw [hkf] at h
      dsimp only at h
      exact List.mem_cons_of_mem _ (lookupMemM l a b h)

theorem candCoreSkipsEnvInit (fullPath : String) (keyOpt : Option String) (i : String)
    (h : specEnvAccessorL i.data = true ∨ specOsEnvironL i.data = true ∨
      dollarCapsL i.data = true) :
    candCore fullPath keyOpt (some i) = none := by
  unfold candCore
  cases keyOpt with
  | none => rfl
  | some key =>
    dsimp only
    by_cases hke : (key == "") = true
    · rw [if_pos hke]
    · rw [if_neg hke]
      have hguard : (!(i == "") && envInitGuard i) = true := by
        rw [specPatternsNonempty i h, envGuardOfSpecPatterns i h]
        rfl
      rw [if_pos hguard]

/-! ## The claims -/

/-- C2: a candidate whose (trimmed) initializer matches an
    environment-accessor expression (`process.env.NAME`), an env-file
    dereference (`os.environ[...]`), or a shell expansion (`$NAME`) never
    records a Suggestion for that occurrence; in particular a file with
    `const token = process.env.AUTH_TOKEN;` yields no Suggestion for
    `token` while `AUTH_TOKEN` appears in the usage list of that file. -/
theorem claimC2 :
    (∀ (mapped fullPath : String) (m : RawMatch) (i : String) (acc : EnvScanResult),
      (if jsTs mapped then m.g3 else m.g2) = some i →
      (specEnvAccessorL (jsTrim i).data = true ∨ specOsEnvironL (jsTrim i).data = true ∨
        dollarCapsL (jsTrim i).data = true) →
      candResult mapped fullPath m = none ∧ processCand mapped fullPath acc m = acc) ∧
    scanForEnv "r" [.file "a.ts" "const token = process.env.AUTH_TOKEN;"] =
      [("AUTH_TOKEN", { usage := ["r/a.ts"], suggested := [] })] := by
  constructor
  · intro mapped fullPath m i acc hi hpat
    have hres : candResult mapped fullPath m = none := by
      unfold candResult
      rw [hi]
      exact candCoreSkipsEnvInit fullPath _ (jsTrim i) hpat
    exact ⟨hres, processCandNone mapped fullPath acc m hres⟩
  · decide

/-- Witness for C2 at the concrete token initializer. -/
theorem claimC2_witness :
    candResult "ts" "r/a.ts"
        ⟨some "const", some "token", some "process.env.AUTH_TOKEN"⟩ = none ∧
      processCand "ts" "r/a.ts" []
        ⟨some "const", some "token", some "process.env.AUTH_TOKEN"⟩ = [] :=
  claimC2.1 "ts" "r/a.ts" ⟨some "const", some "token", some "process.env.AUTH_TOKEN"⟩
    "process.env.AUTH_TOKEN" [] (by decide) (Or.inl (by decide))

/-- C3: `getSeverityFromRules` computes the maximum severity over all
    matching rules (absent when none matches, invariant under rule order);
    the overall candidate severity is the maximum of the name and value
    classifications with the MEDIUM heuristic fallback; and a candidate
    with absent severity never records a Suggestion (while every recorded
    suggestion carries exactly the computed severity). -/
theorem claimC3 :
    (∀ (target : String) (rules : List Rule),
      getSeverityFromRules target rules = listMaxSeverity (matchingSeverities target rules)) ∧
    (∀ (target : String) (rules : List Rule),
      getSeverityFromRules target rules = none ↔ matchingSeverities target rules = []) ∧
    (∀ (target : String) (rules rules' : List Rule), rules.Perm rules' →
      getSeverityFromRules target rules = getSeverityFromRules target rules') ∧
    (∀ (target : String) (rules : List Rule) (s : Severity),
      getSeverityFromRules target rules = some s →
        s ∈ matchingSeverities target rules ∧
          ∀ x ∈ matchingSeverities target rules, severityRank x ≤ severityRank s) ∧
    (∀ (key : String) (literal : Option String),
      candSeverity key literal = severitySpec key literal) ∧
    (∀ (mapped p : String) (m : RawMatch) (key : String) (sg : Suggestion),
      candResult mapped p m = some (key, sg) →
        sg.severity = candSeverity key sg.value ∧ candSeverity key sg.value ≠ none) ∧
    (∀ (mapped p : String) (acc : EnvScanResult) (m : RawMatch),
      candResult mapped p m = none → processCand mapped p acc m = acc) := by
  refine ⟨getSeverityFromRulesEq, ?_, ?_, ?_, candSeverityEqSpec,
    candResultSeverityLink, processCandNone⟩
  · intro target rules
    rw [getSeverityFromRulesEq, listMaxSeverityNoneIff]
  · intro target rules rules' hperm
    rw [getSeverityFromRulesEq, getSeverityFromRulesEq]
    unfold listMaxSeverity
    exact foldlMaxPerm ((hperm.filter _).map _) none
  · intro target rules s h
    rw [getSeverityFromRulesEq] at h
    exact listMaxSeverityIsMax _ _ h

/-- Witness for C3: rule order does not matter for a two-rule table, the
    LOW result on colorTheme is the maximum over its matching rules, and a
    severity-less candidate records nothing. -/
theorem claimC3_witness :
    (getSeverityFromRules "abc"
        [⟨fun s => csubCI "a" s, Severity.LOW⟩, ⟨fun s => csubCI "b" s, Severity.HIGH⟩] =
      getSeverityFromRules "abc"
        [⟨fun s => csubCI "b" s, Severity.HIGH⟩, ⟨fun s => csubCI "a" s, Severity.LOW⟩]) ∧
    (Severity.LOW ∈ matchingSeverities "colorTheme" SUSPICIOUS_NAMES) ∧
    (processCand "ts" "p" [] ⟨some "const", some "x", some "1"⟩ = []) :=
  ⟨claimC3.2.2.1 "abc" _ _ (List.Perm.swap _ _ _),
   (claimC3.2.2.2.1 "colorTheme" SUSPICIOUS_NAMES Severity.LOW (by decide)).1,
   claimC3.2.2.2.2.2.2 "ts" "p" [] ⟨some "const", some "x", some "1"⟩ (by decide)⟩

/-- C5 counterexample: a ts file with `const colorTheme = "dark";` DOES
    record a Suggestion (severity LOW), contradicting the claim that no
    Suggestion at all is recorded. -/
theorem claimC5_counterexample :
    suggFor (scanForEnv "r" [.file "a.ts" "const colorTheme = \"dark\";"]) "colorTheme" =
      [⟨"r/a.ts", some "dark", some Severity.LOW⟩] ∧
    [(⟨"r/a.ts", some "dark", some Severity.LOW⟩ : Suggestion)] ≠ ([] : List Suggestion) := by
  constructor
  · decide
  · decide

/-- C5 amended: the scan of `const colorTheme = "dark";` records exactly one
    Suggestion for colorTheme with severity LOW: the LOW-tier name rules
    `/color/i` and `/theme/i` fire, no value rule fires on "dark", and
    neither heuristic classifier fires. -/
theorem claimC5_amended :
    scanForEnv "r" [.file "a.ts" "const colorTheme = \"dark\";"] =
      [("colorTheme", ⟨[], [⟨"r/a.ts", some "dark", some Severity.LOW⟩]⟩)] ∧
    getSeverityFromRules "colorTheme" SUSPICIOUS_NAMES = some Severity.LOW ∧
    getSeverityFromRules "dark" SUSPICIOUS_VALUES = none ∧
    looksSensitiveName "colorTheme" = false ∧
    looksLikeSecretLiteral "dark" = false ∧
    csubCI "color" "colorTheme" = true ∧ csubCI "theme" "colorTheme" = true := by
  refine ⟨by decide, by decide, by decide, by decide, by decide, by decide, by decide⟩

/-- C6 counterexample: in the two-file dbUrl scenario both recorded
    Suggestions carry severity MEDIUM (from the `/url/i` name rule), not
    HIGH; the claim as stated is false. -/
theorem claimC6_counterexample :
    (suggFor (scanForEnv "r"
        [.file "a.ts" "const dbUrl = \"https://api.example.com/db\";",
         .file "b.ts" "const dbUrl = \"https://api.example.com/db\";"]) "dbUrl").map
      Suggestion.severity = [some Severity.MEDIUM, some Severity.MEDIUM] ∧
    ([some Severity.MEDIUM, some Severity.MEDIUM] : List (Option Severity)) ≠
      [some Severity.HIGH, some Severity.HIGH] := by
  constructor
  · decide
  · decide

/-- C6 amended: the two-file dbUrl scenario yields one Entry for dbUrl with
    exactly two Suggestions (one per file), each with severity MEDIUM from
    the `/url/i` name rule; no literal value is recorded because the
    comment stripper truncates the line at the `//` inside `https://`. -/
theorem claimC6_amended :
    scanForEnv "r"
        [.file "a.ts" "const dbUrl = \"https://api.example.com/db\";",
         .file "b.ts" "const dbUrl = \"https://api.example.com/db\";"] =
      [("dbUrl", ⟨[], [⟨"r/a.ts", none, some Severity.MEDIUM⟩,
        ⟨"r/b.ts", none, some Severity.MEDIUM⟩]⟩)] ∧
    getSeverityFromRules "dbUrl" SUSPICIOUS_NAMES = some Severity.MEDIUM ∧
    csubCI "url" "dbUrl" = true ∧
    stripComments "const dbUrl = \"https://api.example.com/db\";" =
      "const dbUrl = \"https:" := by
  refine ⟨by decide, by decide, by decide, by decide⟩

/-- C7 counterexample: the concatenation `"a" + "b"` IS treated as a
    literal (its first and last characters are the same quote), refuting
    the claim that concatenations never produce a literal. -/
theorem claimC7_counterexample :
    extractStringLiteral "\"a\" + \"b\"" = some "a\" + \"b" ∧
    extractStringLiteral "\"a\" + \"b\"" ≠ none := by
  constructor
  · decide
  · decide

/-- C7 amended: `extractStringLiteral` returns the inner text exactly when
    the trimmed fragment has length at least two, its first character is
    one of the three quote characters and its last character is that same
    quote (embedded newlines and quotes allowed); otherwise no literal.
    Fragments such as function calls or numeric literals yield no literal,
    but any fragment whose two ends are the same quote - including a
    same-quoted concatenation - is extracted whole. -/
theorem claimC7_amended :
    ∀ raw : String, extractStringLiteral raw = extractStringLiteralSpec raw :=
  extractStringLiteralAgrees

/-- C8: a ts file with `const userRegion = "us-east-1";` records a
    Suggestion for userRegion with severity MEDIUM (the `/region/i` name
    rule matches at MEDIUM) and with the extracted literal us-east-1. -/
theorem claimC8 :
    scanForEnv "r" [.file "a.ts" "const userRegion = \"us-east-1\";"] =
      [("userRegion", ⟨[], [⟨"r/a.ts", some "us-east-1", some Severity.MEDIUM⟩]⟩)] ∧
    getSeverityFromRules "userRegion" SUSPICIOUS_NAMES = some Severity.MEDIUM ∧
    csubCI "region" "userRegion" = true ∧
    extractStringLiteral "\"us-east-1\"" = some "us-east-1" := by
  refine ⟨by decide, by decide, by decide, by decide⟩

/-- C9: `splitIdentifier` agrees, on every input, with the specification:
    insert a boundary between every lowercase-or-digit character
    immediately followed by an uppercase character, split on every run of
    whitespace, underscore or hyphen, lowercase every token, drop empty
    tokens; the empty string yields the empty sequence. -/
theorem claimC9 :
    (∀ name : String, splitIdentifier name = splitIdentifierSpec name) ∧
      splitIdentifier "" = [] :=
  ⟨splitIdentifierAgrees, rfl⟩

/-- C10: a file whose name has no dot extension is skipped entirely by the
    walker; the jsx/tsx alias never produces the dockerfile key, so the
    Dockerfile ENV/ARG patterns are selected exactly for names whose
    (lowercased) extension is `dockerfile`; a conventionally named
    `Dockerfile` contributes nothing to the result. -/
theorem claimC10 :
    (∀ (dirPath name content : String) (acc : EnvScanResult),
      extOf name = none → scanEntry dirPath (.file name content) acc = acc) ∧
    (∀ name : String, mappedExtOf name = some "dockerfile" ↔ extOf name = some "dockerfile") ∧
    (∀ (ext : String) (ids : List MatcherId),
      lookupM ext = some ids →
      (MatcherId.dockerEnv ∈ ids ∨ MatcherId.dockerArg ∈ ids) → ext = "dockerfile") ∧
    scanForEnv "r" [.file "Dockerfile" "ENV SECRET_KEY abc\nARG TOKEN=xyz\n"] = [] := by
  refine ⟨?_, ?_, ?_, by decide⟩
  · intro dirPath name content acc hext
    show scanFile dirPath name content acc = acc
    unfold scanFile mappedExtOf
    rw [hext]
    rfl
  · intro name
    unfold mappedExtOf
    cases he : extOf name with
    | none => simp
    | some e =>
      by_cases h1 : (e == "jsx") = true
      · have : e = "jsx" := by simpa using h1
        subst this
        simp
      · by_cases h2 : (e == "tsx") = true
        · have : e = "tsx" := by simpa using h2
          subst this
          simp
        · simp only [Option.map_some', Option.some.injEq]
          rw [if_neg h1, if_neg h2]
  · intro ext ids hl hmem
    have hm := lookupMemM MATCHERS ext ids hl
    have hall : ∀ pr ∈ MATCHERS,
        (MatcherId.dockerEnv ∈ pr.2 ∨ MatcherId.dockerArg ∈ pr.2) → pr.1 = "dockerfile" := by
      decide
    exact hall (ext, ids) hm hmem

/-- Witness for C10 at the conventional Dockerfile name. -/
theorem claimC10_witness :
    scanEntry "r" (.file "Dockerfile" "ENV SECRET_KEY abc") [] = [] ∧
      ("dockerfile" : String) = "dockerfile" :=
  ⟨claimC10.1 "r" "Dockerfile" "ENV SECRET_KEY abc" [] (by decide),
   claimC10.2.2.1 "dockerfile" [.dockerEnv, .dockerArg] (by decide) (Or.inl (by decide))⟩

/-! ## The canonical per-file decomposition of the walk (C1, C4) -/

/-- One eligible file visited by the walk: its full path, mapped extension,
    matcher list and raw content. -/
structure FileRec where
  path : String
  mapped : String
  ids : List MatcherId
  content : String

mutual

/-- The eligible files of a directory listing, in traversal order. -/
def collectEntries (dirPath : String) : List FSEntry → List FileRec
  | [] => []
  | e :: rest => collectEntry dirPath e ++ collectEntries dirPath rest

def collectEntry (dirPath : String) : FSEntry → List FileRec
  | .file name content =>
    (match mappedExtOf name with
     | none => []
     | some mapped =>
       match lookupM mapped with
       | none => []
       | some ids => [⟨pjoin dirPath name, mapped, ids, content⟩])
  | .dir name children =>
    if IGNORE_DIRS.contains name then []
    else collectEntries (pjoin dirPath name) children

end

def fCode (f : FileRec) : List Char := preprocessCode f.mapped f.content

def fUsage (f : FileRec) : List String := usageNames (fCode f)

/-- The pushed (key, suggestion) pairs of one file, in match order. -/
def fCands (f : FileRec) : List (String × Suggestion) :=
  (candMatches f.ids (fCode f)).filterMap (fun m => candResult f.mapped f.path m)

/-- What one file contributes to the usage list of one key. -/
def usageContrib (k : String) (f : FileRec) : List String :=
  if k ∈ fUsage f then [f.path] else []

/-- What one file contributes to the suggestion list of one key: the first
    pushed candidate with that key, if any. -/
def suggContrib (k : String) (f : FileRec) : List Suggestion :=
  (((fCands f).filter (fun c => c.1 = k)).head?.map (fun c => c.2)).toList

def treeUsage (k : String) (files : List FileRec) : List String :=
  files.flatMap (usageContrib k)

def treeSugg (k : String) (files : List FileRec) : List Suggestion :=
  files.flatMap (suggContrib k)

def filePaths (files : List FileRec) : List String := files.map (fun f => f.path)

/-! ## Well-formed directory listings (what a real readdir guarantees) -/

def goodName (n : String) : Bool := !(n == "") && !(n.data.contains '/')

def entryName : FSEntry → String
  | .file n _ => n
  | .dir n _ => n

mutual

def wfEntries : List FSEntry → Bool
  | [] => true
  | e :: rest =>
    wfEntry e && wfEntries rest && !((rest.map entryName).contains (entryName e))

def wfEntry : FSEntry → Bool
  | .file n _ => goodName n
  | .dir n children => goodName n && wfEntries children

end

/-! ## Sibling reorderings of a tree -/

/-- Two listings that present the same files and directories with sibling
    order permuted, at any depth. -/
inductive SPerm : List FSEntry → List FSEntry → Prop where
  | nil : SPerm [] []
  | consFile (n c : String) {xs ys : List FSEntry} :
      SPerm xs ys → SPerm (.file n c :: xs) (.file n c :: ys)
  | consDir (n : String) {as bs : List FSEntry} {xs ys : List FSEntry} :
      SPerm as bs → SPerm xs ys → SPerm (.dir n as :: xs) (.dir n bs :: ys)
  | swap (x y : FSEntry) (l : List FSEntry) : SPerm (x :: y :: l) (y :: x :: l)
  | trans {a b c : List FSEntry} : SPerm a b → SPerm b c → SPerm a c

/-! ## Association-list lemmas for the result object -/

def keysOf (r : EnvScanResult) : List String := r.map (fun ke => ke.1)

def entryPaths (e : EnvScanResultEntry) : List String :=
  e.usage ++ e.suggested.map (fun s => s.file)

def resultPaths (r : EnvScanResult) : List String :=
  r.flatMap (fun ke => entryPaths ke.2)

theorem lookupEntryUpsertSame : ∀ (r : EnvScanResult) (k : String)
    (f : EnvScanResultEntry → EnvScanResultEntry),
    lookupEntry (upsert r k f) k = some (f (entryFor r k))
  | [], k, f => by simp [upsert, lookupEntry, entryFor]
  | (k', e) :: rest, k, f => by
    by_cases hk : (k' == k) = true
    · have : k' = k := by simpa using hk
      subst this
      simp [upsert, lookupEntry, entryFor]
    · simp only [upsert, hk, Bool.false_eq_true, if_false, lookupEntry]
      have : entryFor ((k', e) :: rest) k = entryFor rest k := by
        simp [entryFor, lookupEntry, hk]
      rw [this]
      exact lookupEntryUpsertSame rest k f

theorem lookupEntryUpsertOther : ∀ (r : EnvScanResult) (k k' : String)
    (f : EnvScanResultEntry → EnvScanResultEntry), k' ≠ k →
    lookupEntry (upsert r k f) k' = lookupEntry r k'
  | [], k, k', f, h => by
    simp only [upsert, lookupEntry]
    rw [if_neg (by simpa using Ne.symm h)]
  | (k0, e) :: rest, k, k', f, h => by
    by_cases hk : (k0 == k) = true
    · have hk0 : k0 = k := by simpa using hk
      subst hk0
      have hkk' : (k0 == k') = false := by
        simp only [beq_eq_false_iff_ne, ne_eq]
        exact fun he => h (he.symm)
      simp only [upsert, hk, if_true, lookupEntry, hkk', Bool.false_eq_true, if_false]
    · simp only [upsert, hk, Bool.false_eq_true, if_false, lookupEntry]
      by_cases hk' : (k0 == k') = true
      · rw [if_pos hk', if_pos hk']
      · rw [if_neg hk', if_neg hk']
        exact lookupEntryUpsertOther rest k k' f h

theorem entryForUpsertSame (r : EnvScanResult) (k : String)
    (f : EnvScanResultEntry → EnvScanResultEntry) :
    entryFor (upsert r k f) k = f (entryFor r k) := by
  unfold entryFor
  rw [lookupEntryUpsertSame]
  rfl

theorem entryForUpsertOther (r : EnvScanResult) (k k' : String)
    (f : EnvScanResultEntry → EnvScanResultEntry) (h : k' ≠ k) :
    entryFor (upsert r k f) k' = entryFor r k' := by
  unfold entryFor
  rw [lookupEntryUpsertOther r k k' f h]

theorem keyPresentUpsertSame (r : EnvScanResult) (k : String)
    (f : EnvScanResultEntry → EnvScanResultEntry) :
    keyPresent (upsert r k f) k = true := by
  unfold keyPresent
  rw [lookupEntryUpsertSame]
  rfl

theorem keyPresentUpsertOther (r : EnvScanResult) (k k' : String)
    (f : EnvScanResultEntry → EnvScanResultEntry) (h : k' ≠ k) :
    keyPresent (upsert r k f) k' = keyPresent r k' := by
  unfold keyPresent
  rw [lookupEntryUpsertOther r k k' f h]

theorem keysUpsert : ∀ (r : EnvScanResult) (k : String)
    (f : EnvScanResultEntry → EnvScanResultEntry),
    keysOf (upsert r k f) = if k ∈ keysOf r then keysOf r else keysOf r ++ [k]
  | [], k, f => by simp [upsert, keysOf]
  | (k0, e) :: rest, k, f => by
    by_cases hk : (k0 == k) = true
    · have : k0 = k := by simpa using hk
      subst this
      simp [upsert, keysOf]
    · have hne : ¬k = k0 := by
        intro h
        subst h
        simp at hk
      have hu : upsert ((k0, e) :: rest) k f = (k0, e) :: upsert rest k f := by
        simp [upsert, hk]
      rw [hu]
      have hcons : keysOf ((k0, e) :: upsert rest k f) = k0 :: keysOf (upsert rest k f) := rfl
      have hcons2 : keysOf ((k0, e) :: rest) = k0 :: keysOf rest := rfl
      rw [hcons, hcons2, keysUpsert rest k f]
      by_cases hmem : k ∈ keysOf rest
      · rw [if_pos hmem, if_pos (by simp [hmem])]
      · rw [if_neg hmem, if_neg (by simp [hne, hmem])]
        simp

theorem nodupKeysUpsert (r : EnvScanResult) (k : String)
    (f : EnvScanResultEntry → EnvScanResultEntry) (h : (keysOf r).Nodup) :
    (keysOf (upsert r k f)).Nodup := by
  rw [keysUpsert]
  by_cases hmem : k ∈ keysOf r
  · rw [if_pos hmem]
    exact h
  · rw [if_neg hmem]
    simp only [List.nodup_append, List.nodup_cons]
    refine ⟨h, by simp, ?_⟩
    intro a ha
    simp only [List.mem_singleton]
    intro he
    subst he
    exact hmem ha

/-! ## Component behaviour of addUsage and pushSuggestion -/

theorem usageForAddUsageSame (r : EnvScanResult) (n p : String) :
    usageFor (addUsage n p r) n =
      if p ∈ usageFor r n then usageFor r n else usageFor r n ++ [p] := by
  unfold addUsage usageFor
  rw [entryForUpsertSame]
  by_cases hc : (entryFor r n).usage.contains p = true
  · rw [if_pos hc, if_pos (by simpa using hc)]
  · rw [if_neg hc, if_neg (by simpa using hc)]

theorem usageForAddUsageOther (r : EnvScanResult) (n p k : String) (h : k ≠ n) :
    usageFor (addUsage n p r) k = usageFor r k := by
  unfold addUsage usageFor
  rw [entryForUpsertOther _ _ _ _ h]

theorem suggForAddUsage (r : EnvScanResult) (n p k : String) :
    suggFor (addUsage n p r) k = suggFor r k := by
  unfold addUsage suggFor
  by_cases h : k = n
  · subst h
    rw [entryForUpsertSame]
    by_cases hc : (entryFor r k).usage.contains p = true
    · rw [if_pos hc]
    · rw [if_neg hc]
  · rw [entryForUpsertOther _ _ _ _ h]

theorem keyPresentAddUsage (r : EnvScanResult) (n p k : String) :
    keyPresent (addUsage n p r) k = (keyPresent r k || k == n) := by
  unfold addUsage
  by_cases h : k = n
  · subst h
    rw [keyPresentUpsertSame]
    simp
  · rw [keyPresentUpsertOther _ _ _ _ h]
    have : (k == n) = false := by simpa using h
    rw [this]
    simp

theorem suggForPushSame (r : EnvScanResult) (k : String) (sg : Suggestion) :
    suggFor (pushSuggestion k sg r) k =
      if sg.file ∈ (suggFor r k).map (fun s => s.file) then suggFor r k
      else suggFor r k ++ [sg] := by
  unfold pushSuggestion suggFor
  rw [entryForUpsertSame]
  by_cases hc : (entryFor r k).suggested.any (fun s => s.file == sg.file) = true
  · rw [if_pos hc, if_pos]
    simp only [List.any_eq_true, beq_iff_eq] at hc
    obtain ⟨s, hs, he⟩ := hc
    simp only [List.mem_map]
    exact ⟨s, hs, he⟩
  · rw [if_neg hc, if_neg]
    intro hmem
    apply hc
    simp only [List.mem_map] at hmem
    obtain ⟨s, hs, he⟩ := hmem
    simp only [List.any_eq_true, beq_iff_eq]
    exact ⟨s, hs, he⟩

theorem suggForPushOther (r : EnvScanResult) (k k' : String) (sg : Suggestion) (h : k' ≠ k) :
    suggFor (pushSuggestion k sg r) k' = suggFor r k' := by
  unfold pushSuggestion suggFor
  rw [entryForUpsertOther _ _ _ _ h]

theorem usageForPush (r : EnvScanResult) (k k' : String) (sg : Suggestion) :
    usageFor (pushSuggestion k sg r) k' = usageFor r k' := by
  unfold pushSuggestion usageFor
  by_cases h : k' = k
  · subst h
    rw [entryForUpsertSame]
    by_cases hc : (entryFor r k').suggested.any (fun s => s.file == sg.file) = true
    · rw [if_pos hc]
    · rw [if_neg hc]
  · rw [entryForUpsertOther _ _ _ _ h]

theorem keyPresentPush (r : EnvScanResult) (k k' : String) (sg : Suggestion) :
    keyPresent (pushSuggestion k sg r) k' = (keyPresent r k' || k' == k) := by
  unfold pushSuggestion
  by_cases h : k' = k
  · subst h
    rw [keyPresentUpsertSame]
    simp
  · rw [keyPresentUpsertOther _ _ _ _ h]
    have : (k' == k) = false := by simpa using h
    rw [this]
    simp

theorem nodupKeysAddUsage (r : EnvScanResult) (n p : String) (h : (keysOf r).Nodup) :
    (keysOf (addUsage n p r)).Nodup := nodupKeysUpsert r n _ h

theorem nodupKeysPush (r : EnvScanResult) (k : String) (sg : Suggestion)
    (h : (keysOf r).Nodup) : (keysOf (pushSuggestion k sg r)).Nodup :=
  nodupKeysUpsert r k _ h

/-! ## The usage fold of one file -/

theorem usageFoldLemma : ∀ (names : List String) (p : String) (acc : EnvScanResult) (k : String),
    usageFor (names.foldl (fun a nm => addUsage nm p a) acc) k =
      usageFor acc k ++ (if k ∈ names ∧ p ∉ usageFor acc k then [p] else [])
  | [], p, acc, k => by simp
  | n :: rest, p, acc, k => by
    simp only [List.foldl_cons]
    rw [usageFoldLemma rest p (addUsage n p acc) k]
    by_cases hk : k = n
    · subst hk
      by_cases hp : p ∈ usageFor acc k
      · have h1 : usageFor (addUsage k p acc) k = usageFor acc k := by
          rw [usageForAddUsageSame, if_pos hp]
        rw [h1, if_neg (by simp [hp]), if_neg (by simp [hp])]
      · have h1 : usageFor (addUsage k p acc) k = usageFor acc k ++ [p] := by
          rw [usageForAddUsageSame, if_neg hp]
        rw [h1, if_neg (by simp), if_pos ⟨List.mem_cons_self k rest, hp⟩]
        simp
    · rw [usageForAddUsageOther _ _ _ _ hk]
      have : (k ∈ n :: rest ∧ p ∉ usageFor acc k) ↔ (k ∈ rest ∧ p ∉ usageFor acc k) := by
        simp [List.mem_cons, hk]
      by_cases hc : k ∈ rest ∧ p ∉ usageFor acc k
      · rw [if_pos hc, if_pos (this.mpr hc)]
      · rw [if_neg hc, if_neg (fun hx => hc (this.mp hx))]

theorem suggForUsageFold : ∀ (names : List String) (p : String) (acc : EnvScanResult) (k : String),
    suggFor (names.foldl (fun a nm => addUsage nm p a) acc) k = suggFor acc k
  | [], p, acc, k => rfl
  | n :: rest, p, acc, k => by
    simp only [List.foldl_cons]
    rw [suggForUsageFold rest p (addUsage n p acc) k, suggForAddUsage]

theorem keyPresentUsageFold : ∀ (names : List String) (p : String) (acc : EnvScanResult)
    (k : String),
    keyPresent (names.foldl (fun a nm => addUsage nm p a) acc) k =
      (keyPresent acc k || decide (k ∈ names))
  | [], p, acc, k => by simp
  | n :: rest, p, acc, k => by
    simp only [List.foldl_cons]
    rw [keyPresentUsageFold rest p (addUsage n p acc) k, keyPresentAddUsage]
    by_cases h : k = n
    · subst h
      simp
    · have h1 : (k == n) = false := by simpa using h
      rw [h1]
      simp [List.mem_cons, h]

theorem nodupKeysUsageFold : ∀ (names : List String) (p : String) (acc : EnvScanResult),
    (keysOf acc).Nodup → (keysOf (names.foldl (fun a nm => addUsage nm p a) acc)).Nodup
  | [], p, acc, h => h
  | n :: rest, p, acc, h => by
    simp only [List.foldl_cons]
    exact nodupKeysUsageFold rest p _ (nodupKeysAddUsage acc n p h)

/-! ## The candidate fold of one file -/

theorem candCoreFileEq (fullPath : String) (keyOpt initOpt : Option String) (key : String)
    (sg : Suggestion) (h : candCore fullPath keyOpt initOpt = some (key, sg)) :
    sg.file = fullPath := by
  unfold candCore at h
  cases keyOpt with
  | none => exact absurd h (by simp)
  | some key' =>
    dsimp only at h
    by_cases hke : (key' == "") = true
    · rw [if_pos hke] at h
      exact absurd h (by simp)
    · rw [if_neg hke] at h
      split at h
      · exact absurd h (by simp)
      · set literal := (match initOpt with
          | some i => if (i == "") = true then none else extractStringLiteral i
          | none => none) with hlit
        cases hs : candSeverity key' literal with
        | none =>
          rw [hs] at h
          exact absurd h (by simp)
        | some sev =>
          rw [hs] at h
          simp only [Option.some.injEq, Prod.mk.injEq] at h
          rw [← h.2]

theorem candResultFileEq (mapped p : String) (m : RawMatch) (key : String)
    (sg : Suggestion) (h : candResult mapped p m = some (key, sg)) : sg.file = p :=
  candCoreFileEq p _ _ key sg h

def pushPair (a : EnvScanResult) (c : String × Suggestion) : EnvScanResult :=
  pushSuggestion c.1 c.2 a

theorem candFoldAsPairs : ∀ (ms : List RawMatch) (mapped p : String) (acc : EnvScanResult),
    ms.foldl (fun a m => processCand mapped p a m) acc =
      (ms.filterMap (fun m => candResult mapped p m)).foldl pushPair acc
  | [], _, _, _ => rfl
  | m :: ms, mapped, p, acc => by
    simp only [List.foldl_cons, List.filterMap_cons]
    cases hc : candResult mapped p m with
    | none =>
      rw [processCandNone mapped p acc m hc]
      exact candFoldAsPairs ms mapped p acc
    | some c =>
      have : processCand mapped p acc m = pushSuggestion c.1 c.2 acc := by
        unfold processCand
        rw [hc]
      rw [this]
      simp only [List.foldl_cons]
      exact candFoldAsPairs ms mapped p _

theorem suggFoldLemma : ∀ (cs : List (String × Suggestion)) (p : String)
    (acc : EnvScanResult) (k : String),
    (∀ c ∈ cs, c.2.file = p) →
    suggFor (cs.foldl pushPair acc) k =
      suggFor acc k ++
        (if p ∈ (suggFor acc k).map (fun s => s.file) then []
         else ((cs.filter (fun c => c.1 = k)).head?.map (fun c => c.2)).toList)
  | [], p, acc, k, _ => by simp
  | c :: rest, p, acc, k, hall => by
    obtain ⟨k', sg⟩ := c
    have hfile : sg.file = p := hall _ (List.mem_cons_self _ _)
    have hrest : ∀ c ∈ rest, c.2.file = p := fun c hc => hall c (List.mem_cons_of_mem _ hc)
    simp only [List.foldl_cons]
    rw [suggFoldLemma rest p (pushPair acc (k', sg)) k hrest]
    by_cases hk : k' = k
    · subst hk
      by_cases hp : p ∈ (suggFor acc k').map (fun s => s.file)
      · have h1 : suggFor (pushPair acc (k', sg)) k' = suggFor acc k' := by
          unfold pushPair
          rw [suggForPushSame, if_pos (by rw [hfile]; exact hp)]
        rw [h1, if_pos hp, if_pos hp]
      · have h1 : suggFor (pushPair acc (k', sg)) k' = suggFor acc k' ++ [sg] := by
          unfold pushPair
          rw [suggForPushSame, if_neg (by rw [hfile]; exact hp)]
        rw [h1, if_pos, if_neg hp]
        · simp only [List.filter_cons, decide_eq_true_eq, if_pos rfl]
          simp
        · rw [List.map_append]
          simp [hfile]
    · have h1 : suggFor (pushPair acc (k', sg)) k = suggFor acc k := by
        unfold pushPair
        exact suggForPushOther acc k' k sg (Ne.symm hk)
      rw [h1]
      have h2 : (((k', sg) :: rest).filter (fun c => c.1 = k)) =
          rest.filter (fun c => c.1 = k) := by
        simp [List.filter_cons, hk]
      rw [h2]

theorem usageForSuggFold : ∀ (cs : List (String × Suggestion)) (acc : EnvScanResult)
    (k : String), usageFor (cs.foldl pushPair acc) k = usageFor acc k
  | [], acc, k => rfl
  | c :: rest, acc, k => by
    simp only [List.foldl_cons]
    rw [usageForSuggFold rest _ k]
    unfold pushPair
    exact usageForPush acc c.1 k c.2

theorem keyPresentSuggFold : ∀ (cs : List (String × Suggestion)) (acc : EnvScanResult)
    (k : String),
    keyPresent (cs.foldl pushPair acc) k =
      (keyPresent acc k || decide (k ∈ cs.map (fun c => c.1)))
  | [], acc, k => by simp
  | c :: rest, acc, k => by
    simp only [List.foldl_cons]
    rw [keyPresentSuggFold rest _ k]
    unfold pushPair
    rw [keyPresentPush]
    by_cases h : k = c.1
    · subst h
      simp
    · have h1 : (k == c.1) = false := by simpa using h
      simp [h1, List.mem_cons, h]

theorem nodupKeysSuggFold : ∀ (cs : List (String × Suggestion)) (acc : EnvScanResult),
    (keysOf acc).Nodup → (keysOf (cs.foldl pushPair acc)).Nodup
  | [], acc, h => h
  | c :: rest, acc, h => by
    simp only [List.foldl_cons]
    exact nodupKeysSuggFold rest _ (nodupKeysPush acc c.1 c.2 h)

/-! ## The subdirectory merge -/

theorem lookupEntryNoneOfNotMem : ∀ (r : EnvScanResult) (k : String),
    k ∉ keysOf r → lookupEntry r k = none
  | [], _, _ => rfl
  | (k0, e) :: rest, k, h => by
    simp only [keysOf, List.map_cons, List.mem_cons] at h
    push_neg at h
    simp only [lookupEntry]
    rw [if_neg (by simpa using Ne.symm h.1)]
    exact lookupEntryNoneOfNotMem rest k (by simpa [keysOf] using h.2)

theorem usageForNil (k : String) : usageFor [] k = [] := rfl

theorem usageForConsSame (k0 : String) (e0 : EnvScanResultEntry) (rest : EnvScanResult) :
    usageFor ((k0, e0) :: rest) k0 = e0.usage := by
  simp [usageFor, entryFor, lookupEntry]

theorem usageForConsOther (k0 k : String) (e0 : EnvScanResultEntry) (rest : EnvScanResult)
    (h : k ≠ k0) : usageFor ((k0, e0) :: rest) k = usageFor rest k := by
  simp only [usageFor, entryFor, lookupEntry]
  rw [if_neg (by simpa using Ne.symm h)]

theorem suggForConsSame (k0 : String) (e0 : EnvScanResultEntry) (rest : EnvScanResult) :
    suggFor ((k0, e0) :: rest) k0 = e0.suggested := by
  simp [suggFor, entryFor, lookupEntry]

theorem suggForConsOther (k0 k : String) (e0 : EnvScanResultEntry) (rest : EnvScanResult)
    (h : k ≠ k0) : suggFor ((k0, e0) :: rest) k = suggFor rest k := by
  simp only [suggFor, entryFor, lookupEntry]
  rw [if_neg (by simpa using Ne.symm h)]

theorem keyPresentConsSame (k0 : String) (e0 : EnvScanResultEntry) (rest : EnvScanResult) :
    keyPresent ((k0, e0) :: rest) k0 = true := by
  simp [keyPresent, lookupEntry]

theorem keyPresentConsOther (k0 k : String) (e0 : EnvScanResultEntry) (rest : EnvScanResult)
    (h : k ≠ k0) : keyPresent ((k0, e0) :: rest) k = keyPresent rest k := by
  simp only [keyPresent, lookupEntry]
  rw [if_neg (by simpa using Ne.symm h)]

theorem usageForOfNotMem (r : EnvScanResult) (k : String) (h : k ∉ keysOf r) :
    usageFor r k = [] := by
  simp [usageFor, entryFor, lookupEntryNoneOfNotMem r k h, emptyEntry]

theorem mergeLemma : ∀ (nested : List (String × EnvScanResultEntry)) (acc : EnvScanResult)
    (k : String), (keysOf nested).Nodup →
    usageFor (mergeResult acc nested) k = usageFor acc k ++ usageFor nested k ∧
    suggFor (mergeResult acc nested) k = suggFor acc k ++ suggFor nested k ∧
    keyPresent (mergeResult acc nested) k = (keyPresent acc k || keyPresent nested k)
  | [], acc, k, _ => by
    refine ⟨?_, ?_, ?_⟩ <;>
      simp [mergeResult, usageFor, suggFor, keyPresent, entryFor, lookupEntry, emptyEntry]
  | (k0, e0) :: rest, acc, k, hnd => by
    have hcons : keysOf ((k0, e0) :: rest) = k0 :: keysOf rest := rfl
    rw [hcons] at hnd
    have hnd' : (keysOf rest).Nodup := hnd.of_cons
    have hk0 : k0 ∉ keysOf rest := (List.nodup_cons.mp hnd).1
    have hstep : mergeResult acc ((k0, e0) :: rest) =
        mergeResult (upsert acc k0
          (fun cur => ⟨cur.usage ++ e0.usage, cur.suggested ++ e0.suggested⟩)) rest := by
      simp [mergeResult, List.foldl_cons]
    rw [hstep]
    obtain ⟨ihU, ihS, ihP⟩ := mergeLemma rest (upsert acc k0
      (fun cur => ⟨cur.usage ++ e0.usage, cur.suggested ++ e0.suggested⟩)) k hnd'
    by_cases hk : k = k0
    · subst hk
      refine ⟨?_, ?_, ?_⟩
      · rw [ihU, usageForConsSame]
        have h1 : usageFor (upsert acc k
            (fun cur => ⟨cur.usage ++ e0.usage, cur.suggested ++ e0.suggested⟩)) k =
            usageFor acc k ++ e0.usage := by
          unfold usageFor
          rw [entryForUpsertSame]
        have h2 : usageFor rest k = [] := usageForOfNotMem rest k hk0
        rw [h1, h2, List.append_nil]
      · rw [ihS, suggForConsSame]
        have h1 : suggFor (upsert acc k
            (fun cur => ⟨cur.usage ++ e0.usage, cur.suggested ++ e0.suggested⟩)) k =
            suggFor acc k ++ e0.suggested := by
          unfold suggFor
          rw [entryForUpsertSame]
        have h2 : suggFor rest k = [] := by
          simp [suggFor, entryFor, lookupEntryNoneOfNotMem rest k hk0, emptyEntry]
        rw [h1, h2, List.append_nil]
      · rw [ihP, keyPresentConsSame, keyPresentUpsertSame]
        simp
    · refine ⟨?_, ?_, ?_⟩
      · rw [ihU, usageForConsOther _ _ _ _ hk]
        unfold usageFor
        rw [entryForUpsertOther _ _ _ _ hk]
      · rw [ihS, suggForConsOther _ _ _ _ hk]
        unfold suggFor
        rw [entryForUpsertOther _ _ _ _ hk]
      · rw [ihP, keyPresentConsOther _ _ _ _ hk, keyPresentUpsertOther _ _ _ _ hk]

theorem nodupKeysMerge : ∀ (nested : List (String × EnvScanResultEntry)) (acc : EnvScanResult),
    (keysOf acc).Nodup → (keysOf (mergeResult acc nested)).Nodup
  | [], acc, h => h
  | (k0, e0) :: rest, acc, h => by
    have hstep : mergeResult acc ((k0, e0) :: rest) =
        mergeResult (upsert acc k0
          (fun cur => ⟨cur.usage ++ e0.usage, cur.suggested ++ e0.suggested⟩)) rest := by
      simp [mergeResult, List.foldl_cons]
    rw [hstep]
    exact nodupKeysMerge rest _ (nodupKeysUpsert acc k0 _ h)

/-! ## Paths of the collected files are pairwise distinct -/

/-- `p` lies directly below `dirPath` under one of the given entry names. -/
def pathBelow (dirPath : String) (names : List String) (p : String) : Prop :=
  ∃ n ∈ names, ∃ t : String,
    p = dirPath ++ "/" ++ n ++ t ∧ (t.data = [] ∨ t.data.head? = some '/')

theorem dataAppend (a b : String) : (a ++ b).data = a.data ++ b.data := rfl

mutual

theorem collectPathBelow (dirPath : String) : ∀ (entries : List FSEntry) (p : String),
    p ∈ filePaths (collectEntries dirPath entries) →
    pathBelow dirPath (entries.map entryName) p
  | [], p, h => by simp [collectEntries, filePaths] at h
  | e :: rest, p, h => by
    simp only [collectEntries, filePaths, List.map_append, List.mem_append] at h
    rcases h with h | h
    · obtain ⟨n, hn, t, ht⟩ := collectPathBelowEntry dirPath e p h
      exact ⟨n, by simp [List.mem_singleton.mp hn], t, ht⟩
    · obtain ⟨n, hn, t, ht⟩ := collectPathBelow dirPath rest p h
      exact ⟨n, by simp [List.mem_cons]; right; simpa using hn, t, ht⟩

theorem collectPathBelowEntry (dirPath : String) : ∀ (e : FSEntry) (p : String),
    p ∈ filePaths (collectEntry dirPath e) → pathBelow dirPath [entryName e] p
  | .file name content, p, h => by
    simp only [collectEntry, filePaths] at h
    refine ⟨name, by simp [entryName], "", ?_, Or.inl rfl⟩
    have hp : p = pjoin dirPath name := by
      cases hm : mappedExtOf name with
      | none => rw [hm] at h; simp at h
      | some mapped =>
        rw [hm] at h
        dsimp only at h
        cases hl : lookupM mapped with
        | none => rw [hl] at h; simp at h
        | some ids =>
          rw [hl] at h
          simpa using h
    rw [hp, String.append_empty]
    rfl
  | .dir name children, p, h => by
    simp only [collectEntry] at h
    by_cases hig : IGNORE_DIRS.contains name = true
    · rw [if_pos hig] at h
      simp [filePaths] at h
    · rw [if_neg hig] at h
      obtain ⟨n', hn', t', ht', hc'⟩ := collectPathBelow (pjoin dirPath name) children p h
      refine ⟨name, by simp [entryName], "/" ++ n' ++ t', ?_, ?_⟩
      · rw [ht']
        simp [pjoin, String.append_assoc]
      · right
        rw [dataAppend, dataAppend]
        rfl

end

theorem compDisjoint : ∀ (n1 n2 t1 t2 : List Char),
    '/' ∉ n1 → '/' ∉ n2 →
    (t1 = [] ∨ t1.head? = some '/') → (t2 = [] ∨ t2.head? = some '/') →
    n1 ++ t1 = n2 ++ t2 → n1 = n2
  | [], [], _, _, _, _, _, _, _ => rfl
  | [], c2 :: n2, t1, t2, h1, h2, c1, _, he => by
    exfalso
    simp only [List.nil_append, List.cons_append] at he
    rcases c1 with rfl | hh
    · simp at he
    · rw [he] at hh
      simp only [List.head?_cons, Option.some.injEq] at hh
      exact h2 (by rw [← hh]; exact List.mem_cons_self _ _)
  | c1c :: n1, [], t1, t2, h1, h2, _, c2, he => by
    exfalso
    simp only [List.nil_append, List.cons_append] at he
    rcases c2 with rfl | hh
    · simp at he
    · rw [← he] at hh
      simp only [List.head?_cons, Option.some.injEq] at hh
      exact h1 (by rw [← hh]; exact List.mem_cons_self _ _)
  | c1c :: n1, c2c :: n2, t1, t2, h1, h2, c1, c2, he => by
    simp only [List.cons_append, List.cons.injEq] at he
    obtain ⟨rfl, he2⟩ := he
    have := compDisjoint n1 n2 t1 t2 (fun h => h1 (List.mem_cons_of_mem _ h))
      (fun h => h2 (List.mem_cons_of_mem _ h)) c1 c2 he2
    rw [this]

theorem goodNameNoSlash (n : String) (h : goodName n = true) : '/' ∉ n.data := by
  unfold goodName at h
  simp only [Bool.and_eq_true, Bool.not_eq_true'] at h
  intro hmem
  have := h.2
  rw [List.contains_eq_any_beq] at this
  simp only [List.any_eq_false, beq_iff_eq] at this
  exact absurd rfl (this '/' hmem)

theorem pathBelowDisjoint (dirPath n1 n2 t1 t2 : String)
    (g1 : goodName n1 = true) (g2 : goodName n2 = true) (hne : n1 ≠ n2)
    (c1 : t1.data = [] ∨ t1.data.head? = some '/')
    (c2 : t2.data = [] ∨ t2.data.head? = some '/') :
    dirPath ++ "/" ++ n1 ++ t1 ≠ dirPath ++ "/" ++ n2 ++ t2 := by
  intro he
  apply hne
  have hd : (dirPath ++ "/" ++ n1 ++ t1).data = (dirPath ++ "/" ++ n2 ++ t2).data := by
    rw [he]
  simp only [dataAppend, List.append_assoc] at hd
  have hcan := List.append_cancel_left (List.append_cancel_left hd)
  have := compDisjoint n1.data n2.data t1.data t2.data
    (goodNameNoSlash n1 g1) (goodNameNoSlash n2 g2) c1 c2 hcan
  exact String.ext this

theorem wfEntryGoodName (e : FSEntry) (h : wfEntry e = true) :
    goodName (entryName e) = true := by
  cases e with
  | file n c => exact h
  | dir n children =>
    simp only [wfEntry, Bool.and_eq_true] at h
    exact h.1

theorem wfCons (e : FSEntry) (rest : List FSEntry) (h : wfEntries (e :: rest) = true) :
    wfEntry e = true ∧ wfEntries rest = true ∧ entryName e ∉ rest.map entryName := by
  simp only [wfEntries, Bool.and_eq_true, Bool.not_eq_true'] at h
  refine ⟨h.1.1, h.1.2, ?_⟩
  intro hmem
  have := h.2
  rw [List.contains_eq_any_beq] at this
  simp only [List.any_eq_false, beq_iff_eq] at this
  exact absurd rfl (this _ hmem)

theorem wfEntriesNamesGood : ∀ (entries : List FSEntry), wfEntries entries = true →
    ∀ n ∈ entries.map entryName, goodName n = true
  | [], _, n, hn => by simp at hn
  | e :: rest, h, n, hn => by
    obtain ⟨h1, h2, _⟩ := wfCons e rest h
    rw [List.map_cons, List.mem_cons] at hn
    rcases hn with rfl | hn
    · exact wfEntryGoodName e h1
    · exact wfEntriesNamesGood rest h2 n hn

theorem collectDisjointHead (dirPath : String) (e : FSEntry) (rest : List FSEntry)
    (hwf : wfEntries (e :: rest) = true) :
    ∀ p ∈ filePaths (collectEntry dirPath e), p ∉ filePaths (collectEntries dirPath rest) := by
  obtain ⟨h1, h2, hnin⟩ := wfCons e rest hwf
  intro p hp hp'
  obtain ⟨n1, hn1, t1, ht1, hc1⟩ := collectPathBelowEntry dirPath e p hp
  obtain ⟨n2, hn2, t2, ht2, hc2⟩ := collectPathBelow dirPath rest p hp'
  rw [List.mem_singleton] at hn1
  subst hn1
  have hne : entryName e ≠ n2 := by
    intro he
    rw [he] at hnin
    exact hnin hn2
  have := pathBelowDisjoint dirPath (entryName e) n2 t1 t2
    (wfEntryGoodName e h1) (wfEntriesNamesGood rest h2 n2 hn2) hne hc1 hc2
  rw [ht1] at ht2
  exact this ht2

mutual

theorem collectNodup : ∀ (dirPath : String) (entries : List FSEntry),
    wfEntries entries = true → (filePaths (collectEntries dirPath entries)).Nodup
  | dirPath, [], _ => by simp [collectEntries, filePaths]
  | dirPath, e :: rest, h => by
    obtain ⟨h1, h2, _⟩ := wfCons e rest h
    have hfp : filePaths (collectEntries dirPath (e :: rest)) =
        filePaths (collectEntry dirPath e) ++ filePaths (collectEntries dirPath rest) := by
      simp [collectEntries, filePaths]
    rw [hfp, List.nodup_append]
    exact ⟨collectNodupEntry dirPath e h1, collectNodup dirPath rest h2,
      collectDisjointHead dirPath e rest h⟩

theorem collectNodupEntry : ∀ (dirPath : String) (e : FSEntry),
    wfEntry e = true → (filePaths (collectEntry dirPath e)).Nodup
  | dirPath, .file name content, _ => by
    simp only [collectEntry]
    cases mappedExtOf name with
    | none => simp [filePaths]
    | some mapped =>
      cases hl : lookupM mapped with
      | none => simp [filePaths, hl]
      | some ids => simp [filePaths, hl]
  | dirPath, .dir name children, h => by
    simp only [collectEntry]
    by_cases hig : IGNORE_DIRS.contains name = true
    · rw [if_pos hig]
      simp [filePaths]
    · rw [if_neg hig]
      simp only [wfEntry, Bool.and_eq_true] at h
      exact collectNodup (pjoin dirPath name) children h.2

end

/-! ## Membership glue between results and their paths -/

theorem lookupEntryMem : ∀ (r : EnvScanResult) (k : String) (e : EnvScanResultEntry),
    lookupEntry r k = some e → (k, e) ∈ r
  | [], _, _, h => by simp [lookupEntry] at h
  | (k0, e0) :: rest, k, e, h => by
    simp only [lookupEntry] at h
    by_cases hk : (k0 == k) = true
    · rw [if_pos hk] at h
      simp only [Option.some.injEq] at h
      subst h
      have : k0 = k := by simpa using hk
      subst this
      exact List.mem_cons_self _ _
    · rw [if_neg hk] at h
      exact List.mem_cons_of_mem _ (lookupEntryMem rest k e h)

theorem pairMemLookup : ∀ (r : EnvScanResult) (k : String) (e : EnvScanResultEntry),
    (keysOf r).Nodup → (k, e) ∈ r → lookupEntry r k = some e
  | [], _, _, _, h => by simp at h
  | (k0, e0) :: rest, k, e, hnd, h => by
    have hcons : keysOf ((k0, e0) :: rest) = k0 :: keysOf rest := rfl
    rw [hcons] at hnd
    rw [List.mem_cons] at h
    simp only [lookupEntry]
    rcases h with h | h
    · rw [Prod.mk.injEq] at h
      obtain ⟨rfl, rfl⟩ := h
      rw [if_pos (by simp)]
    · have hk : k ≠ k0 := by
        intro he
        subst he
        exact (List.nodup_cons.mp hnd).1 (by
          simpa [keysOf] using List.mem_map_of_mem (fun ke => ke.1) h)
      rw [if_neg (by simpa using Ne.symm hk)]
      exact pairMemLookup rest k e (List.nodup_cons.mp hnd).2 h

theorem usageForMemResultPaths (r : EnvScanResult) (k p : String)
    (h : p ∈ usageFor r k) : p ∈ resultPaths r := by
  unfold usageFor entryFor at h
  cases hl : lookupEntry r k with
  | none =>
    rw [hl] at h
    simp [emptyEntry] at h
  | some e =>
    rw [hl] at h
    simp only [Option.getD_some] at h
    have hmem := lookupEntryMem r k e hl
    unfold resultPaths
    rw [List.mem_flatMap]
    exact ⟨(k, e), hmem, by unfold entryPaths; exact List.mem_append_left _ h⟩

theorem suggFileMemResultPaths (r : EnvScanResult) (k p : String)
    (h : p ∈ (suggFor r k).map (fun s => s.file)) : p ∈ resultPaths r := by
  unfold suggFor entryFor at h
  cases hl : lookupEntry r k with
  | none =>
    rw [hl] at h
    simp [emptyEntry] at h
  | some e =>
    rw [hl] at h
    simp only [Option.getD_some] at h
    have hmem := lookupEntryMem r k e hl
    unfold resultPaths
    rw [List.mem_flatMap]
    exact ⟨(k, e), hmem, by unfold entryPaths; exact List.mem_append_right _ h⟩

theorem resultPathsElim (r : EnvScanResult) (p : String) (hnd : (keysOf r).Nodup)
    (h : p ∈ resultPaths r) :
    ∃ k, p ∈ usageFor r k ∨ p ∈ (suggFor r k).map (fun s => s.file) := by
  unfold resultPaths at h
  rw [List.mem_flatMap] at h
  obtain ⟨⟨k, e⟩, hmem, hp⟩ := h
  have hl := pairMemLookup r k e hnd hmem
  refine ⟨k, ?_⟩
  unfold entryPaths at hp
  rw [List.mem_append] at hp
  rcases hp with hp | hp
  · left
    unfold usageFor entryFor
    rw [hl]
    exact hp
  · right
    unfold suggFor entryFor
    rw [hl]
    exact hp

/-! ## Contribution glue -/

theorem fCandsFile (f : FileRec) : ∀ c ∈ fCands f, c.2.file = f.path := by
  intro c hc
  unfold fCands at hc
  rw [List.mem_filterMap] at hc
  obtain ⟨m, _, hm⟩ := hc
  exact candResultFileEq f.mapped f.path m c.1 c.2 (by rw [hm])

theorem treeUsagePaths (k : String) (files : List FileRec) :
    ∀ p ∈ treeUsage k files, p ∈ filePaths files := by
  intro p hp
  unfold treeUsage at hp
  rw [List.mem_flatMap] at hp
  obtain ⟨f, hf, hp⟩ := hp
  unfold usageContrib at hp
  by_cases hk : k ∈ fUsage f
  · rw [if_pos hk] at hp
    rw [List.mem_singleton] at hp
    subst hp
    exact List.mem_map_of_mem _ hf
  · rw [if_neg hk] at hp
    simp at hp

theorem treeSuggFiles (k : String) (files : List FileRec) :
    ∀ sg ∈ treeSugg k files, sg.file ∈ filePaths files := by
  intro sg hsg
  unfold treeSugg at hsg
  rw [List.mem_flatMap] at hsg
  obtain ⟨f, hf, hsg⟩ := hsg
  unfold suggContrib at hsg
  cases hh : ((fCands f).filter (fun c => c.1 = k)).head? with
  | none => rw [hh] at hsg; simp at hsg
  | some c =>
    rw [hh] at hsg
    simp only [Option.map_some', Option.toList_some, List.mem_singleton] at hsg
    subst hsg
    have hcm : c ∈ (fCands f).filter (fun c => c.1 = k) := List.mem_of_mem_head? hh
    rw [List.mem_filter] at hcm
    rw [fCandsFile f c hcm.1]
    exact List.mem_map_of_mem _ hf

theorem treeUsageAppend (k : String) (a b : List FileRec) :
    treeUsage k (a ++ b) = treeUsage k a ++ treeUsage k b := by
  unfold treeUsage
  rw [List.flatMap_append]

theorem treeSuggAppend (k : String) (a b : List FileRec) :
    treeSugg k (a ++ b) = treeSugg k a ++ treeSugg k b := by
  unfold treeSugg
  rw [List.flatMap_append]

theorem treeUsageSingle (k : String) (f : FileRec) : treeUsage k [f] = usageContrib k f := by
  unfold treeUsage
  simp

theorem treeSuggSingle (k : String) (f : FileRec) : treeSugg k [f] = suggContrib k f := by
  unfold treeSugg
  simp

theorem usageContribNonempty (k : String) (f : FileRec) :
    usageContrib k f ≠ [] ↔ k ∈ fUsage f := by
  unfold usageContrib
  by_cases hk : k ∈ fUsage f
  · rw [if_pos hk]
    simp [hk]
  · rw [if_neg hk]
    simp [hk]

theorem suggContribNonempty (k : String) (f : FileRec) :
    suggContrib k f ≠ [] ↔ k ∈ (fCands f).map (fun c => c.1) := by
  unfold suggContrib
  cases hh : ((fCands f).filter (fun c => c.1 = k)).head? with
  | none =>
    simp only [Option.map_none', Option.toList_none, ne_eq, not_true_eq_false, false_iff]
    rw [List.head?_eq_none_iff] at hh
    intro hmem
    rw [List.mem_map] at hmem
    obtain ⟨c, hc, he⟩ := hmem
    have : c ∈ (fCands f).filter (fun c => c.1 = k) := by
      rw [List.mem_filter]
      exact ⟨hc, by simp [he]⟩
    rw [hh] at this
    simp at this
  | some c =>
    simp only [Option.map_some', Option.toList_some, ne_eq]
    constructor
    · intro _
      have hcm : c ∈ (fCands f).filter (fun c => c.1 = k) := List.mem_of_mem_head? hh
      rw [List.mem_filter] at hcm
      rw [List.mem_map]
      exact ⟨c, hcm.1, by simpa using hcm.2⟩
    · intro _
      simp

theorem emptyResultPaths : resultPaths [] = [] := rfl

theorem usageForEmpty (k : String) : usageFor [] k = [] := rfl

theorem suggForEmpty (k : String) : suggFor [] k = [] := rfl

theorem keyPresentEmpty (k : String) : keyPresent [] k = false := rfl

/-! ## One file's effect on the accumulator -/

theorem fileContribution (f : FileRec) (acc : EnvScanResult)
    (hd : ∀ k, f.path ∉ usageFor acc k ∧ f.path ∉ (suggFor acc k).map (fun s => s.file))
    (hnd : (keysOf acc).Nodup) :
    (∀ k, usageFor ((fCands f).foldl pushPair
        ((fUsage f).foldl (fun a nm => addUsage nm f.path a) acc)) k =
      usageFor acc k ++ treeUsage k [f]) ∧
    (∀ k, suggFor ((fCands f).foldl pushPair
        ((fUsage f).foldl (fun a nm => addUsage nm f.path a) acc)) k =
      suggFor acc k ++ treeSugg k [f]) ∧
    (∀ k, keyPresent ((fCands f).foldl pushPair
        ((fUsage f).foldl (fun a nm => addUsage nm f.path a) acc)) k = true ↔
      keyPresent acc k = true ∨ treeUsage k [f] ≠ [] ∨ treeSugg k [f] ≠ []) ∧
    (keysOf ((fCands f).foldl pushPair
        ((fUsage f).foldl (fun a nm => addUsage nm f.path a) acc))).Nodup := by
  refine ⟨?_, ?_, ?_, ?_⟩
  · intro k
    rw [usageForSuggFold, usageFoldLemma, treeUsageSingle]
    unfold usageContrib
    by_cases hk : k ∈ fUsage f
    · rw [if_pos hk, if_pos ⟨hk, (hd k).1⟩]
    · rw [if_neg hk, if_neg (fun hc => hk hc.1)]
  · intro k
    rw [suggFoldLemma (fCands f) f.path _ k (fCandsFile f), suggForUsageFold,
      treeSuggSingle]
    rw [if_neg (hd k).2]
    rfl
  · intro k
    rw [keyPresentSuggFold, keyPresentUsageFold, treeUsageSingle, treeSuggSingle]
    simp only [Bool.or_eq_true, decide_eq_true_eq, usageContribNonempty, suggContribNonempty]
    tauto
  · exact nodupKeysSuggFold _ _ (nodupKeysUsageFold _ _ _ hnd)

theorem scanFileMain (dirPath name content : String) (acc : EnvScanResult)
    (hdisj : ∀ p ∈ resultPaths acc,
      p ∉ filePaths (collectEntry dirPath (.file name content)))
    (hnd : (keysOf acc).Nodup) :
    (∀ k, usageFor (scanFile dirPath name content acc) k =
        usageFor acc k ++ treeUsage k (collectEntry dirPath (.file name content))) ∧
    (∀ k, suggFor (scanFile dirPath name content acc) k =
        suggFor acc k ++ treeSugg k (collectEntry dirPath (.file name content))) ∧
    (∀ k, keyPresent (scanFile dirPath name content acc) k = true ↔
        keyPresent acc k = true ∨
          treeUsage k (collectEntry dirPath (.file name content)) ≠ [] ∨
          treeSugg k (collectEntry dirPath (.file name content)) ≠ []) ∧
    (keysOf (scanFile dirPath name content acc)).Nodup := by
  cases hm : mappedExtOf name with
  | none =>
    have h1 : scanFile dirPath name content acc = acc := by
      unfold scanFile
      rw [hm]
    have h2 : collectEntry dirPath (FSEntry.file name content) = [] := by
      simp [collectEntry, hm]
    rw [h1, h2]
    exact ⟨fun k => by simp [treeUsage], fun k => by simp [treeSugg],
      fun k => by simp [treeUsage, treeSugg], hnd⟩
  | some mapped =>
    cases hl : lookupM mapped with
    | none =>
      have h1 : scanFile dirPath name content acc = acc := by
        unfold scanFile
        rw [hm]
        dsimp only
        rw [hl]
      have h2 : collectEntry dirPath (FSEntry.file name content) = [] := by
        simp [collectEntry, hm, hl]
      rw [h1, h2]
      exact ⟨fun k => by simp [treeUsage], fun k => by simp [treeSugg],
        fun k => by simp [treeUsage, treeSugg], hnd⟩
    | some ids =>
      have h2 : collectEntry dirPath (FSEntry.file name content) =
          [⟨pjoin dirPath name, mapped, ids, content⟩] := by
        simp [collectEntry, hm, hl]
      have h1 : scanFile dirPath name content acc =
          (fCands ⟨pjoin dirPath name, mapped, ids, content⟩).foldl pushPair
            ((fUsage ⟨pjoin dirPath name, mapped, ids, content⟩).foldl
              (fun a nm =>
                addUsage nm (FileRec.path ⟨pjoin dirPath name, mapped, ids, content⟩) a)
              acc) := by
        unfold scanFile
        rw [hm]
        dsimp only
        rw [hl]
        dsimp only
        rw [candFoldAsPairs]
        rfl
      have hd : ∀ k,
          (FileRec.path ⟨pjoin dirPath name, mapped, ids, content⟩) ∉ usageFor acc k ∧
          (FileRec.path ⟨pjoin dirPath name, mapped, ids, content⟩) ∉
            (suggFor acc k).map (fun s => s.file) := by
        intro k
        constructor
        · intro hmem
          exact hdisj _ (usageForMemResultPaths acc k _ hmem)
            (by rw [h2]; simp [filePaths])
        · intro hmem
          exact hdisj _ (suggFileMemResultPaths acc k _ hmem)
            (by rw [h2]; simp [filePaths])
      obtain ⟨cU, cS, cP, cN⟩ :=
        fileContribution ⟨pjoin dirPath name, mapped, ids, content⟩ acc hd hnd
      rw [h1, h2]
      exact ⟨cU, cS, cP, cN⟩

/-! ## The walk decomposes into per-file contributions -/

mutual

theorem scanEntriesMain : ∀ (dirPath : String) (entries : List FSEntry) (acc : EnvScanResult),
    wfEntries entries = true →
    (∀ p ∈ resultPaths acc, p ∉ filePaths (collectEntries dirPath entries)) →
    (keysOf acc).Nodup →
    (∀ k, usageFor (scanEntries dirPath entries acc) k =
        usageFor acc k ++ treeUsage k (collectEntries dirPath entries)) ∧
    (∀ k, suggFor (scanEntries dirPath entries acc) k =
        suggFor acc k ++ treeSugg k (collectEntries dirPath entries)) ∧
    (∀ k, keyPresent (scanEntries dirPath entries acc) k = true ↔
        keyPresent acc k = true ∨
          treeUsage k (collectEntries dirPath entries) ≠ [] ∨
          treeSugg k (collectEntries dirPath entries) ≠ []) ∧
    (keysOf (scanEntries dirPath entries acc)).Nodup
  | dirPath, [], acc, _, _, hnd => by
    have hs : scanEntries dirPath [] acc = acc := by simp [scanEntries]
    have hc : collectEntries dirPath [] = [] := by simp [collectEntries]
    rw [hs, hc]
    exact ⟨fun k => by simp [treeUsage], fun k => by simp [treeSugg],
      fun k => by simp [treeUsage, treeSugg], hnd⟩
  | dirPath, e :: rest, acc, hwf, hdisj, hnd => by
    obtain ⟨hwe, hwr, _⟩ := wfCons e rest hwf
    have hcoll : collectEntries dirPath (e :: rest) =
        collectEntry dirPath e ++ collectEntries dirPath rest := by
      simp [collectEntries]
    have hstep : scanEntries dirPath (e :: rest) acc =
        scanEntries dirPath rest (scanEntry dirPath e acc) := by
      simp [scanEntries]
    have hdisjE : ∀ p ∈ resultPaths acc, p ∉ filePaths (collectEntry dirPath e) := by
      intro p hp hq
      exact hdisj p hp (by rw [hcoll, filePaths, List.map_append, List.mem_append]
                           exact Or.inl hq)
    obtain ⟨ihU1, ihS1, ihP1, ihN1⟩ := scanEntryMain dirPath e acc hwe hdisjE hnd
    have hacc1paths : ∀ p ∈ resultPaths (scanEntry dirPath e acc),
        p ∈ resultPaths acc ∨ p ∈ filePaths (collectEntry dirPath e) := by
      intro p hp
      obtain ⟨k, hk⟩ := resultPathsElim (scanEntry dirPath e acc) p ihN1 hp
      rcases hk with hk | hk
      · rw [ihU1 k, List.mem_append] at hk
        rcases hk with hk | hk
        · exact Or.inl (usageForMemResultPaths acc k p hk)
        · exact Or.inr (treeUsagePaths k _ p hk)
      · rw [ihS1 k, List.map_append, List.mem_append] at hk
        rcases hk with hk | hk
        · exact Or.inl (suggFileMemResultPaths acc k p hk)
        · rw [List.mem_map] at hk
          obtain ⟨sg, hsg, rfl⟩ := hk
          exact Or.inr (treeSuggFiles k _ sg hsg)
    have hdisjR : ∀ p ∈ resultPaths (scanEntry dirPath e acc),
        p ∉ filePaths (collectEntries dirPath rest) := by
      intro p hp hq
      rcases hacc1paths p hp with hc | hc
      · exact hdisj p hc (by rw [hcoll, filePaths, List.map_append, List.mem_append]
                             exact Or.inr hq)
      · exact collectDisjointHead dirPath e rest hwf p hc hq
    obtain ⟨ihU2, ihS2, ihP2, ihN2⟩ :=
      scanEntriesMain dirPath rest (scanEntry dirPath e acc) hwr hdisjR ihN1
    rw [hstep, hcoll]
    refine ⟨?_, ?_, ?_, ihN2⟩
    · intro k
      rw [ihU2 k, ihU1 k, treeUsageAppend, List.append_assoc]
    · intro k
      rw [ihS2 k, ihS1 k, treeSuggAppend, List.append_assoc]
    · intro k
      rw [ihP2 k, ihP1 k, treeUsageAppend, treeSuggAppend]
      simp only [ne_eq, List.append_eq_nil, not_and_or]
      tauto

theorem scanEntryMain : ∀ (dirPath : String) (e : FSEntry) (acc : EnvScanResult),
    wfEntry e = true →
    (∀ p ∈ resultPaths acc, p ∉ filePaths (collectEntry dirPath e)) →
    (keysOf acc).Nodup →
    (∀ k, usageFor (scanEntry dirPath e acc) k =
        usageFor acc k ++ treeUsage k (collectEntry dirPath e)) ∧
    (∀ k, suggFor (scanEntry dirPath e acc) k =
        suggFor acc k ++ treeSugg k (collectEntry dirPath e)) ∧
    (∀ k, keyPresent (scanEntry dirPath e acc) k = true ↔
        keyPresent acc k = true ∨
          treeUsage k (collectEntry dirPath e) ≠ [] ∨
          treeSugg k (collectEntry dirPath e) ≠ []) ∧
    (keysOf (scanEntry dirPath e acc)).Nodup
  | dirPath, .file name content, acc, _, hdisj, hnd => by
    have hs : scanEntry dirPath (.file name content) acc =
        scanFile dirPath name content acc := by
      simp [scanEntry]
    rw [hs]
    exact scanFileMain dirPath name content acc hdisj hnd
  | dirPath, .dir name children, acc, hwe, hdisj, hnd => by
    have hwc : wfEntries children = true := by
      simp only [wfEntry, Bool.and_eq_true] at hwe
      exact hwe.2
    by_cases hig : IGNORE_DIRS.contains name = true
    · have hs : scanEntry dirPath (.dir name children) acc = acc := by
        simp only [scanEntry]
        rw [if_pos hig]
      have hc : collectEntry dirPath (.dir name children) = [] := by
        simp only [collectEntry]
        rw [if_pos hig]
      rw [hs, hc]
      exact ⟨fun k => by simp [treeUsage], fun k => by simp [treeSugg],
        fun k => by simp [treeUsage, treeSugg], hnd⟩
    · have hs : scanEntry dirPath (.dir name children) acc =
          mergeResult acc (scanEntries (pjoin dirPath name) children []) := by
        simp only [scanEntry]
        rw [if_neg hig]
      have hc : collectEntry dirPath (.dir name children) =
          collectEntries (pjoin dirPath name) children := by
        simp only [collectEntry]
        rw [if_neg hig]
      obtain ⟨nU, nS, nP, nN⟩ := scanEntriesMain (pjoin dirPath name) children []
        hwc (by intro p hp; simp [resultPaths] at hp) (by simp [keysOf])
      rw [hs, hc]
      refine ⟨?_, ?_, ?_, nodupKeysMerge _ acc hnd⟩
      · intro k
        obtain ⟨mU, _, _⟩ :=
          mergeLemma (scanEntries (pjoin dirPath name) children []) acc k nN
        rw [mU, nU k, usageForEmpty, List.nil_append]
      · intro k
        obtain ⟨_, mS, _⟩ :=
          mergeLemma (scanEntries (pjoin dirPath name) children []) acc k nN
        rw [mS, nS k, suggForEmpty, List.nil_append]
      · intro k
        obtain ⟨_, _, mP⟩ :=
          mergeLemma (scanEntries (pjoin dirPath name) children []) acc k nN
        rw [mP, Bool.or_eq_true, nP k, keyPresentEmpty]
        simp only [Bool.false_eq_true, false_or]

end

/-! ## Sibling reordering preserves well-formedness and permutes the files -/

theorem spermNames {xs ys : List FSEntry} (h : SPerm xs ys) :
    (xs.map entryName).Perm (ys.map entryName) := by
  induction h with
  | nil => exact List.Perm.refl _
  | consFile n c h ih => exact List.Perm.cons _ ih
  | consDir n ha h iha ih => exact List.Perm.cons _ ih
  | swap x y l =>
    simp only [List.map_cons]
    exact List.Perm.swap _ _ _
  | trans h1 h2 ih1 ih2 => exact ih1.trans ih2

theorem wfConsIntro (e : FSEntry) (rest : List FSEntry) (h1 : wfEntry e = true)
    (h2 : wfEntries rest = true) (h3 : entryName e ∉ rest.map entryName) :
    wfEntries (e :: rest) = true := by
  simp only [wfEntries, Bool.and_eq_true, Bool.not_eq_true']
  refine ⟨⟨h1, h2⟩, ?_⟩
  rw [List.contains_eq_any_beq]
  simp only [List.any_eq_false, beq_iff_eq]
  intro n hn he
  exact h3 (he ▸ hn)

theorem spermWf {xs ys : List FSEntry} (hp : SPerm xs ys) :
    wfEntries xs = true → wfEntries ys = true := by
  induction hp with
  | nil => exact id
  | consFile n c hp ih =>
    intro h
    obtain ⟨h1, h2, h3⟩ := wfCons _ _ h
    exact wfConsIntro _ _ h1 (ih h2) (fun hm => h3 (((spermNames hp).mem_iff).mpr hm))
  | consDir n hpa hp iha ih =>
    intro h
    obtain ⟨h1, h2, h3⟩ := wfCons _ _ h
    refine wfConsIntro _ _ ?_ (ih h2) (fun hm => h3 (((spermNames hp).mem_iff).mpr hm))
    simp only [wfEntry, Bool.and_eq_true] at h1 ⊢
    exact ⟨h1.1, iha h1.2⟩
  | swap x y l =>
    intro h
    obtain ⟨hx, hyl, hxn⟩ := wfCons _ _ h
    obtain ⟨hy, hl, hyn⟩ := wfCons _ _ hyl
    rw [List.map_cons, List.mem_cons] at hxn
    push_neg at hxn
    refine wfConsIntro _ _ hy (wfConsIntro _ _ hx hl hxn.2) ?_
    rw [List.map_cons, List.mem_cons]
    push_neg
    exact ⟨fun he => hxn.1 he.symm, hyn⟩
  | trans h1 h2 ih1 ih2 => exact fun h => ih2 (ih1 h)

theorem spermCollect {xs ys : List FSEntry} (hp : SPerm xs ys) :
    ∀ dirPath : String, (collectEntries dirPath xs).Perm (collectEntries dirPath ys) := by
  induction hp with
  | nil =>
    intro d
    exact List.Perm.refl _
  | consFile n c hp ih =>
    intro d
    simp only [collectEntries]
    exact List.Perm.append_left _ (ih d)
  | consDir n hpa hp iha ih =>
    intro d
    simp only [collectEntries, collectEntry]
    by_cases hig : IGNORE_DIRS.contains n = true
    · rw [if_pos hig, if_pos hig]
      simp only [List.nil_append]
      exact ih d
    · rw [if_neg hig, if_neg hig]
      exact List.Perm.append (iha (pjoin d n)) (ih d)
  | swap x y l =>
    intro d
    simp only [collectEntries]
    rw [← List.append_assoc, ← List.append_assoc]
    exact List.Perm.append_right _ List.perm_append_comm
  | trans h1 h2 ih1 ih2 =>
    intro d
    exact (ih1 d).trans (ih2 d)

theorem permFlatMap {α β : Type} (f : α → List β) :
    ∀ {l1 l2 : List α}, l1.Perm l2 → (l1.flatMap f).Perm (l2.flatMap f) := by
  intro l1 l2 h
  induction h with
  | nil => exact List.Perm.refl _
  | cons x h ih =>
    simp only [List.flatMap_cons]
    exact List.Perm.append_left _ ih
  | swap x y l =>
    simp only [List.flatMap_cons]
    rw [← List.append_assoc, ← List.append_assoc]
    exact List.Perm.append_right _ List.perm_append_comm
  | trans h1 h2 ih1 ih2 => exact ih1.trans ih2

/-! ## Per-key lists collected over distinct files have no duplicate paths -/

theorem suggContribFiles (k : String) (f : FileRec) :
    ∀ sg ∈ suggContrib k f, sg.file = f.path := by
  intro sg hsg
  unfold suggContrib at hsg
  cases hh : ((fCands f).filter (fun c => c.1 = k)).head? with
  | none =>
    rw [hh] at hsg
    simp at hsg
  | some c =>
    rw [hh] at hsg
    simp only [Option.map_some', Option.toList_some, List.mem_singleton] at hsg
    subst hsg
    have hcm : c ∈ (fCands f).filter (fun c => c.1 = k) := List.mem_of_mem_head? hh
    rw [List.mem_filter] at hcm
    exact fCandsFile f c hcm.1

theorem suggContribLen (k : String) (f : FileRec) : (suggContrib k f).length ≤ 1 := by
  unfold suggContrib
  cases hh : ((fCands f).filter (fun c => c.1 = k)).head? <;> simp

theorem treeUsageNodup (k : String) : ∀ (files : List FileRec),
    (filePaths files).Nodup → (treeUsage k files).Nodup
  | [], _ => by simp [treeUsage]
  | f :: rest, h => by
    have hcons : filePaths (f :: rest) = f.path :: filePaths rest := rfl
    rw [hcons] at h
    have h1 : f.path ∉ filePaths rest := (List.nodup_cons.mp h).1
    have h2 := treeUsageNodup k rest (List.nodup_cons.mp h).2
    have hT : treeUsage k (f :: rest) = usageContrib k f ++ treeUsage k rest := by
      simp [treeUsage]
    rw [hT]
    unfold usageContrib
    by_cases hk : k ∈ fUsage f
    · rw [if_pos hk]
      simp only [List.singleton_append, List.nodup_cons]
      exact ⟨fun hmem => h1 (treeUsagePaths k rest _ hmem), h2⟩
    · rw [if_neg hk]
      simpa using h2

theorem treeSuggNodup (k : String) : ∀ (files : List FileRec),
    (filePaths files).Nodup → ((treeSugg k files).map (fun s => s.file)).Nodup
  | [], _ => by simp [treeSugg]
  | f :: rest, h => by
    have hcons : filePaths (f :: rest) = f.path :: filePaths rest := rfl
    rw [hcons] at h
    have h1 : f.path ∉ filePaths rest := (List.nodup_cons.mp h).1
    have h2 := treeSuggNodup k rest (List.nodup_cons.mp h).2
    have hT : treeSugg k (f :: rest) = suggContrib k f ++ treeSugg k rest := by
      simp [treeSugg]
    rw [hT, List.map_append]
    cases hsc : suggContrib k f with
    | nil => simpa using h2
    | cons sg tl =>
      have hlen := suggContribLen k f
      rw [hsc] at hlen
      have htl : tl = [] := by
        cases tl with
        | nil => rfl
        | cons a b => simp at hlen
      subst htl
      have hfile : sg.file = f.path :=
        suggContribFiles k f sg (by rw [hsc]; exact List.mem_cons_self _ _)
      simp only [List.map_cons, List.map_nil, List.singleton_append]
      refine List.nodup_cons.mpr ⟨?_, h2⟩
      intro hmem
      rw [List.mem_map] at hmem
      obtain ⟨sg2, hsg2, he⟩ := hmem
      refine h1 ?_
      rw [← hfile, ← he]
      exact treeSuggFiles k rest sg2 hsg2

/-! ## C1 and C4 -/

/-- C1 counterexample: with two sibling ts files both using
    `process.env.FOO`, swapping the sibling order changes the usage list
    of FOO from [r/a.ts, r/b.ts] to [r/b.ts, r/a.ts]; the ScanResult is
    NOT identical under reordering, because the per-key merge concatenates
    lists and concatenation is not commutative. -/
theorem claimC1_counterexample :
    wfEntries [FSEntry.file "a.ts" "const x = process.env.FOO;",
      FSEntry.file "b.ts" "const y = process.env.FOO;"] = true ∧
    SPerm [FSEntry.file "a.ts" "const x = process.env.FOO;",
        FSEntry.file "b.ts" "const y = process.env.FOO;"]
      [FSEntry.file "b.ts" "const y = process.env.FOO;",
        FSEntry.file "a.ts" "const x = process.env.FOO;"] ∧
    scanForEnv "r" [FSEntry.file "a.ts" "const x = process.env.FOO;",
        FSEntry.file "b.ts" "const y = process.env.FOO;"] ≠
      scanForEnv "r" [FSEntry.file "b.ts" "const y = process.env.FOO;",
        FSEntry.file "a.ts" "const x = process.env.FOO;"] :=
  ⟨by decide, SPerm.swap _ _ _, by decide⟩

/-- C1 amended: over a well-formed listing (distinct sibling names, no
    slashes in names), visiting siblings in a permuted order yields, for
    every key, the same usage list and the same suggested list up to
    permutation, and the same key set; recursion order permutes but never
    changes the per-key contributions. -/
theorem claimC1_amended (dirPath : String) (xs ys : List FSEntry)
    (hwf : wfEntries xs = true) (hp : SPerm xs ys) (k : String) :
    (usageFor (scanForEnv dirPath xs) k).Perm (usageFor (scanForEnv dirPath ys) k) ∧
    (suggFor (scanForEnv dirPath xs) k).Perm (suggFor (scanForEnv dirPath ys) k) ∧
    keyPresent (scanForEnv dirPath xs) k = keyPresent (scanForEnv dirPath ys) k := by
  have hwf2 := spermWf hp hwf
  obtain ⟨hU1, hS1, hP1, _⟩ := scanEntriesMain dirPath xs []
    hwf (by intro p hp0; simp [resultPaths] at hp0) (by simp [keysOf])
  obtain ⟨hU2, hS2, hP2, _⟩ := scanEntriesMain dirPath ys []
    hwf2 (by intro p hp0; simp [resultPaths] at hp0) (by simp [keysOf])
  have hcp : (collectEntries dirPath xs).Perm (collectEntries dirPath ys) :=
    spermCollect hp dirPath
  have hup : (treeUsage k (collectEntries dirPath xs)).Perm
      (treeUsage k (collectEntries dirPath ys)) := permFlatMap _ hcp
  have hsp : (treeSugg k (collectEntries dirPath xs)).Perm
      (treeSugg k (collectEntries dirPath ys)) := permFlatMap _ hcp
  refine ⟨?_, ?_, ?_⟩
  · show (usageFor (scanEntries dirPath xs []) k).Perm
      (usageFor (scanEntries dirPath ys []) k)
    rw [hU1 k, hU2 k, usageForEmpty, List.nil_append, List.nil_append]
    exact hup
  · show (suggFor (scanEntries dirPath xs []) k).Perm
      (suggFor (scanEntries dirPath ys []) k)
    rw [hS1 k, hS2 k, suggForEmpty, List.nil_append, List.nil_append]
    exact hsp
  · show keyPresent (scanEntries dirPath xs []) k = keyPresent (scanEntries dirPath ys []) k
    have hne1 : (treeUsage k (collectEntries dirPath xs) ≠ []) ↔
        (treeUsage k (collectEntries dirPath ys) ≠ []) := by
      apply not_congr
      rw [← List.length_eq_zero, ← List.length_eq_zero, hup.length_eq]
    have hne2 : (treeSugg k (collectEntries dirPath xs) ≠ []) ↔
        (treeSugg k (collectEntries dirPath ys) ≠ []) := by
      apply not_congr
      rw [← List.length_eq_zero, ← List.length_eq_zero, hsp.length_eq]
    have hiff : keyPresent (scanEntries dirPath xs []) k = true ↔
        keyPresent (scanEntries dirPath ys []) k = true := by
      rw [hP1 k, hP2 k, keyPresentEmpty]
      simp only [Bool.false_eq_true, false_or]
      rw [hne1, hne2]
    cases hbx : keyPresent (scanEntries dirPath xs []) k <;>
      cases hby : keyPresent (scanEntries dirPath ys []) k
    · rfl
    · exact absurd (hiff.mpr hby) (by rw [hbx]; simp)
    · exact absurd (hiff.mp hbx) (by rw [hby]; simp)
    · rfl

/-- Witness for C1 amended: the sibling swap of the counterexample
    scenario leaves the usage list of FOO a permutation of the original
    and the key present on both sides. -/
theorem claimC1_amended_witness :
    (usageFor (scanForEnv "r" [FSEntry.file "a.ts" "const x = process.env.FOO;",
        FSEntry.file "b.ts" "const y = process.env.FOO;"]) "FOO").Perm
      (usageFor (scanForEnv "r" [FSEntry.file "b.ts" "const y = process.env.FOO;",
        FSEntry.file "a.ts" "const x = process.env.FOO;"]) "FOO") ∧
    (suggFor (scanForEnv "r" [FSEntry.file "a.ts" "const x = process.env.FOO;",
        FSEntry.file "b.ts" "const y = process.env.FOO;"]) "FOO").Perm
      (suggFor (scanForEnv "r" [FSEntry.file "b.ts" "const y = process.env.FOO;",
        FSEntry.file "a.ts" "const x = process.env.FOO;"]) "FOO") ∧
    keyPresent (scanForEnv "r" [FSEntry.file "a.ts" "const x = process.env.FOO;",
        FSEntry.file "b.ts" "const y = process.env.FOO;"]) "FOO" =
      keyPresent (scanForEnv "r" [FSEntry.file "b.ts" "const y = process.env.FOO;",
        FSEntry.file "a.ts" "const x = process.env.FOO;"]) "FOO" :=
  claimC1_amended "r"
    [FSEntry.file "a.ts" "const x = process.env.FOO;",
      FSEntry.file "b.ts" "const y = process.env.FOO;"]
    [FSEntry.file "b.ts" "const y = process.env.FOO;",
      FSEntry.file "a.ts" "const x = process.env.FOO;"]
    (by decide) (SPerm.swap _ _ _) "FOO"

/-- C4: over a well-formed listing, for every key of the returned
    ScanResult the usage list contains no duplicate file paths and the
    suggested list contains no two Suggestions with the same file path:
    the per-file dedup guards make each file contribute at most one usage
    path and at most one Suggestion per key, the visited file paths are
    pairwise distinct, and the subdirectory merge concatenates
    contributions of disjoint path sets. -/
theorem claimC4 (dirPath : String) (entries : List FSEntry)
    (hwf : wfEntries entries = true) (k : String) :
    (usageFor (scanForEnv dirPath entries) k).Nodup ∧
    ((suggFor (scanForEnv dirPath entries) k).map (fun s => s.file)).Nodup := by
  obtain ⟨hU, hS, _, _⟩ := scanEntriesMain dirPath entries []
    hwf (by intro p hp0; simp [resultPaths] at hp0) (by simp [keysOf])
  have hpn := collectNodup dirPath entries hwf
  constructor
  · show (usageFor (scanEntries dirPath entries []) k).Nodup
    rw [hU k, usageForEmpty, List.nil_append]
    exact treeUsageNodup k _ hpn
  · show ((suggFor (scanEntries dirPath entries []) k).map (fun s => s.file)).Nodup
    rw [hS k, suggForEmpty, List.nil_append]
    exact treeSuggNodup k _ hpn

/-- Witness for C4: a tree with a nested directory and two files using the
    same key has duplicate-free usage paths and suggestion files. -/
theorem claimC4_witness :
    (usageFor (scanForEnv "r"
        [FSEntry.file "a.ts" "const x = process.env.FOO;",
         FSEntry.dir "sub" [FSEntry.file "b.ts" "const y = process.env.FOO;"]]) "FOO").Nodup ∧
    ((suggFor (scanForEnv "r"
        [FSEntry.file "a.ts" "const x = process.env.FOO;",
         FSEntry.dir "sub" [FSEntry.file "b.ts" "const y = process.env.FOO;"]]) "FOO").map
      (fun s => s.file)).Nodup :=
  claimC4 "r"
    [FSEntry.file "a.ts" "const x = process.env.FOO;",
     FSEntry.dir "sub" [FSEntry.file "b.ts" "const y = process.env.FOO;"]]
    (by decide) "FOO"
